import Mathlib

/-!
Verification of the INI-style configuration parser (src/Parser.h).

Strings are modelled as lists of characters. The C++ functions TrimString,
ParseValue, Tokenize, CleanArrayString and the GetAs casts are translated
directly; the recursive Parser::ParseSection, which mutates a tree of
sections in place through parent pointers, is modelled as a line-by-line
step function over a cursor state (the current section plus the stack of
its open ancestors) — the source itself never unwinds its recursion before
end of input, so its parent-pointer walk is exactly a stack pop.
-/

namespace INI

abbrev Str := List Char

/-- characters trimmed by TrimString: the source array " \t\r\n" searched by
    std::strchr, which also matches the terminating NUL, so a NUL character
    counts as trimmable as well. -/
def isTrimChar (c : Char) : Bool :=
  c = ' ' || c = '\t' || c = '\r' || c = '\n' || c = '\x00'

/-- TrimString scans an index forward from the start and one backward from the
    end over trimmable characters and returns the middle substring; this is
    dropping trimmable characters from both ends. -/
def TrimString (s : Str) : Str :=
  ((s.dropWhile isTrimChar).reverse.dropWhile isTrimChar).reverse

/-- index of the first occurrence of a character, as std::string::find. -/
def findChar (c : Char) : Str → Option Nat
  | [] => none
  | a :: s => if a = c then some 0 else (findChar c s).map Nat.succ

/-- ParseValue: the source loops over the two-character string "#;", calling
    find for '#' first and breaking as soon as a find succeeds; the value is
    cut before the found position. So a '#' anywhere wins over a ';', and ';'
    is only searched for when the string contains no '#' at all. -/
def ParseValue (s : Str) : Str :=
  match findChar '#' s with
  | some ep => s.take ep
  | none =>
    match findChar ';' s with
    | some ep => s.take ep
    | none => s

/-- C isspace in the default locale: space, tab, newline, vertical tab,
    form feed, carriage return. -/
def isSpaceChar (c : Char) : Bool :=
  c = ' ' || c = '\t' || c = '\n' || c = '\x0b' || c = '\x0c' || c = '\r'

/-- std::string::operator[]: positions up to size are readable, position size
    holding the terminating NUL character. -/
def charAt (s : Str) (i : Nat) : Char := s.getD i '\x00'

/-- one pass of Tokenize: a non-delimiter character is appended to the token
    being built (kept reversed in cur); a delimiter closes a nonempty current
    token and is otherwise dropped. At the end the source pops trailing empty
    tokens; all finished tokens are nonempty, so only an empty current token
    can be dropped. -/
def tokenizeAux (isDelim : Char → Bool) : Str → Str → List Str → List Str
  | [], cur, done =>
      if cur.isEmpty then done.reverse else (cur.reverse :: done).reverse
  | c :: rest, cur, done =>
      if !(isDelim c) then tokenizeAux isDelim rest (c :: cur) done
      else if cur.isEmpty then tokenizeAux isDelim rest cur done
      else tokenizeAux isDelim rest [] (cur.reverse :: done)

/-- Tokenize with a delimiter set. -/
def Tokenize (s : Str) (delims : List Char) : List Str :=
  tokenizeAux (fun c => delims.contains c) s [] []

/-- the validity check of CleanArrayString, exactly as in the source:
    assert of the disjunction of (string nonempty), (first character is an
    open brace) and (the character at index size is a close brace). The
    character at index size is the NUL terminator, never a close brace, and
    on an empty string the first character also reads as NUL; so the whole
    disjunction holds iff the string is nonempty. -/
def cleanArrayCheck (s : Str) : Bool :=
  !(s.isEmpty) || charAt s 0 = '\x7b' || charAt s s.length = '\x7d'

/-- CleanArrayString: after the (unsound) validity check the source takes
    substr(1, size-1) — dropping only the first character, so a closing brace
    stays and is later swallowed by the per-token numeric cast — erases every
    whitespace character, and tokenizes on commas. A failed assert is
    modelled as none. -/
def CleanArrayString (s : Str) : Option (List Str) :=
  if cleanArrayCheck s then
    some (Tokenize ((s.drop 1).filter (fun c => !(isSpaceChar c))) [','])
  else none

/-- decimal digit test. -/
def isDigitChar (c : Char) : Bool := '0' ≤ c && c ≤ '9'

/-- accumulate the value of a digit string. -/
def digitsVal : Str → Nat → Nat
  | [], acc => acc
  | c :: s, acc => digitsVal s (10 * acc + (c.toNat - '0'.toNat))

/-- leading digit run as a number; none when the first character is not a
    digit (reading NUL on the empty string). -/
def stoiNat (s : Str) : Option Nat :=
  if isDigitChar (charAt s 0) then some (digitsVal (s.takeWhile isDigitChar) 0) else none

/-- std::stoi: skip whitespace, optional sign, base-10 digit run; failure
    (std::invalid_argument) when no digit follows. Parsing stops at the first
    non-digit, which is ignored. Out-of-range values are not modelled; every
    input cast in the claims is a one-digit number. -/
def stoi (s : Str) : Option Int :=
  match s.dropWhile isSpaceChar with
  | '-' :: r => (stoiNat r).map (fun n => -(n : Int))
  | '+' :: r => (stoiNat r).map (fun n => (n : Int))
  | t => (stoiNat t).map (fun n => (n : Int))

/-- the literal text compared against by the boolean cast. -/
def trueLit : Str := ['t', 'r', 'u', 'e']

/-- GetAs for bool: erase every whitespace character, compare with the
    literal "true"; anything else gives false, and nothing fails. -/
def GetAsBool (s : Str) : Bool :=
  if s.filter (fun c => !(isSpaceChar c)) = trueLit then true else false

/-- GetAs for a vector of int: CleanArrayString then stoi on each token in
    order; a stoi failure aborts the whole cast. -/
def GetAsVecInt (s : Str) : Option (List Int) :=
  (CleanArrayString s).bind (fun toks => toks.mapM stoi)

/-- a Section node: mValues, mOrderedValues, mSections, mOrderedSections and
    mDepth of the source. The two std::maps are modelled as association
    lists kept in insertion order (map iteration order is never observed:
    export walks the two ordered lists, which the source fills with map
    iterators and which are modelled as the corresponding keys, resolved
    against the association list where the source dereferences an iterator).
    The mParent pointer is not a field: the chain of parents of the section
    being parsed is carried as an explicit stack in the parser state. -/
inductive Sec : Type where
  | mk : List (Str × Str) → List Str → List (Str × Sec) → List Str → Nat → Sec

def Sec.values : Sec → List (Str × Str)
  | Sec.mk v _ _ _ _ => v

def Sec.orderedValues : Sec → List Str
  | Sec.mk _ ov _ _ _ => ov

def Sec.sections : Sec → List (Str × Sec)
  | Sec.mk _ _ s _ _ => s

def Sec.orderedSections : Sec → List Str
  | Sec.mk _ _ _ os _ => os

def Sec.depth : Sec → Nat
  | Sec.mk _ _ _ _ d => d

/-- lookup in an association list, first match wins (std::map lookup by key;
    the list never holds two pairs with the same key). -/
def alookup {α : Type} (k : Str) : List (Str × α) → Option α
  | [] => none
  | (k', v) :: rest => if k' = k then some v else alookup k rest

/-- a fresh section of a given stored depth. A default-constructed Section
    has depth 0; a child gets the header depth assigned right at creation
    (the source default-inserts it and then immediately sets mDepth, since
    its mParent is still null). -/
def emptySec (d : Nat) : Sec := Sec.mk [] [] [] [] d

/-- Section::operator[]: std::map operator[] on mValues returns the stored
    value and, when the key is absent, default-inserts an empty string and
    returns that. mOrderedValues is not touched. Only the key set of the map
    is observable in this model, so the new pair is appended. -/
def Sec.getValueDefault (S : Sec) (k : Str) : Str × Sec :=
  match alookup k S.values with
  | some v => (v, S)
  | none =>
      ([], Sec.mk (S.values ++ [(k, [])]) S.orderedValues S.sections S.orderedSections S.depth)

/-- parse errors raised by Parser::Error. -/
inductive PErr : Type where
  | sectionDepth
  | duplicateSection
  | duplicateKey
  | missingAssign
deriving DecidableEq

/-- parser cursor state: the section currently being filled, plus one frame
    per open ancestor, innermost first. A frame stores the name under which
    the open child sits in its parent together with the parent with that
    child absent from mSections — in the source the child lives inside the
    parent map and is mutated in place through the map; reinstating it on
    every pop is the functional rendering of that sharing. The root is the
    bottom of the chain and carries no name. -/
structure PSt : Type where
  cur : Sec
  stk : List (Str × Sec)

/-- close the innermost open section into its parent: one step of the
    source's walk along mParent pointers. On an empty stack (the source
    would dereference the root's null mParent — unreachable on any input,
    see the spine invariant below) the state is returned unchanged. -/
def pop1 : PSt → PSt
  | ⟨cur, []⟩ => ⟨cur, []⟩
  | ⟨cur, (nm, p) :: stk⟩ =>
      ⟨Sec.mk p.values p.orderedValues (p.sections ++ [(nm, cur)]) p.orderedSections p.depth, stk⟩

def popN : Nat → PSt → PSt
  | 0, st => st
  | n + 1, st => popN n (pop1 st)

/-- key/value branch of Parser::ParseSection: find '=' (error when absent),
    key is the trimmed part before it, value the comment-stripped trim of
    the part after it; inserting an already present key is an error, and a
    successful insert appends the key to mOrderedValues. -/
def keyvalStep (line : Str) (st : PSt) : Except PErr PSt :=
  match findChar '=' line with
  | none => .error .missingAssign
  | some n =>
    let key := TrimString (line.take n)
    let v := ParseValue (TrimString (line.drop (n + 1)))
    match alookup key st.cur.values with
    | some _ => .error .duplicateKey
    | none => .ok ⟨Sec.mk (st.cur.values ++ [(key, v)]) (st.cur.orderedValues ++ [key])
        st.cur.sections st.cur.orderedSections st.cur.depth, st.stk⟩

/-- header name of Parser::ParseLine: substr(depth, length - 2*depth) where
    depth is the count of leading open brackets. The count is a size_t and
    wraps when length < 2*depth, and substr then clamps to the end of the
    string. -/
def headerName (line : Str) (d : Nat) : Str :=
  if 2 * d ≤ line.length then (line.drop d).take (line.length - 2 * d) else line.drop d

/-- section-header branch of Parser::ParseSection. The depth is the count of
    leading open brackets (at least 1, since the branch is taken only when
    the line starts with one). Depth more than one past the current section
    is an error. The target parent is the current section when the header
    opens one level deeper, and otherwise the ancestor reached by walking
    mDepth - depth + 1 parent links, i.e. that many stack pops. A name
    already present under the target parent means a section whose mDepth was
    already set nonzero, the source's duplicate test; a fresh name gets a
    new section of the header's depth, appended to the parent's
    mOrderedSections at creation, and parsing continues inside it. -/
def headerStep (line : Str) (st : PSt) : Except PErr PSt :=
  let d := (line.takeWhile (fun c => c = '[')).length
  let name := headerName line d
  if st.cur.depth + 1 < d then .error .sectionDepth
  else
    let st' := if st.cur.depth + 1 = d then st else popN (st.cur.depth - d + 1) st
    match alookup name st'.cur.sections with
    | some _ => .error .duplicateSection
    | none => .ok ⟨emptySec d,
        (name, Sec.mk st'.cur.values st'.cur.orderedValues st'.cur.sections
          (st'.cur.orderedSections ++ [name]) st'.cur.depth) :: st'.stk⟩

/-- one line of Parser::ParseSection: the full-line comment test reads the
    first character of the raw, untrimmed line (NUL on an empty line); then
    the line is trimmed, empty lines are skipped, a leading open bracket
    selects the header branch and anything else the key/value branch. -/
def lineStep (st : PSt) (raw : Str) : Except PErr PSt :=
  if charAt raw 0 = '#' || charAt raw 0 = ';' then .ok st
  else if (TrimString raw).isEmpty then .ok st
  else if charAt (TrimString raw) 0 = '[' then headerStep (TrimString raw) st
  else keyvalStep (TrimString raw) st

def runLines : List Str → PSt → Except PErr PSt
  | [], st => .ok st
  | l :: ls, st => (lineStep st l).bind (runLines ls)

/-- at end of input every recursive ParseSection call returns; the completed
    tree is the root with every still-open section closed into its parent. -/
def closeAll (st : PSt) : Sec := (popN st.stk.length st).cur

/-- std::getline driven line splitting: lines are separated by a line feed,
    and a line feed directly before end of input does not open a further
    (empty) line, since the next getline immediately fails. -/
def getLinesAux : Str → Str → List Str
  | [], acc => [acc.reverse]
  | c :: rest, acc =>
      if c = '\n' then
        if rest.isEmpty then [acc.reverse]
        else acc.reverse :: getLinesAux rest []
      else getLinesAux rest (c :: acc)

def getLines : Str → List Str
  | [] => []
  | s => getLinesAux s []

/-- the Parser constructor: read all lines, parse them into the root
    (a default Section, depth 0), close the open sections at end of input. -/
def parseConfig (text : Str) : Except PErr Sec :=
  (runLines (getLines text) ⟨emptySec 0, []⟩).map closeAll

/-- Parser::ExportSection, translated with an explicit recursion bound
    (strictly larger than the tree height, so the bound is never hit): a
    leading line feed when the section is named, the depth's worth of open
    brackets, the name (the source prints it only when nonempty, and an
    empty name prints nothing either way), the depth's worth of close
    brackets and a line feed when named; then every key/value pair in
    mOrderedValues order as a "key=value" line — the stored ordered list
    holds map iterators, modelled as the keys resolved through the map —
    and finally the child sections in mOrderedSections order, resolved the
    same way (the getD defaults are unreachable: the iterators are valid). -/
def exportSecF : Nat → Sec → Str → Str
  | 0, _, _ => []
  | fuel + 1, S, name =>
      (if name.isEmpty then [] else ['\n']) ++
      List.replicate S.depth '[' ++
      name ++
      List.replicate S.depth ']' ++
      (if name.isEmpty then [] else ['\n']) ++
      (S.orderedValues.map (fun k => k ++ '=' :: ((alookup k S.values).getD []) ++ ['\n'])).flatten ++
      (S.orderedSections.map (fun nm =>
        exportSecF fuel ((alookup nm S.sections).getD (emptySec 0)) nm)).flatten

mutual

/-- number of sections of a tree (the node itself plus its descendants);
    it strictly bounds the height, so it serves as the recursion bound. -/
def secSize : Sec → Nat
  | Sec.mk _ _ secs _ _ => 1 + secsSize secs

def secsSize : List (Str × Sec) → Nat
  | [] => 0
  | (_, c) :: rest => secSize c + secsSize rest

end

/-- Parser::ExportSection on the root: exported with the empty name (no
    header, no blank line; the root's depth is 0, so no brackets either). -/
def exportConfig (T : Sec) : Str := exportSecF (secSize T) T []

/-- the line list of an export, for relating export text to the parser's
    line-by-line reading: same traversal as exportSecF, one entry per
    emitted line (the blank line and the header line for a named section,
    then the key/value lines, then the child lines). -/
def exportLinesF : Nat → Sec → Str → List Str
  | 0, _, _ => []
  | fuel + 1, S, name =>
      (if name.isEmpty then []
       else [[], List.replicate S.depth '[' ++ name ++ List.replicate S.depth ']']) ++
      S.orderedValues.map (fun k => k ++ '=' :: ((alookup k S.values).getD [])) ++
      (S.orderedSections.map (fun nm =>
        exportLinesF fuel ((alookup nm S.sections).getD (emptySec 0)) nm)).flatten

/-- join a list of lines, terminating every line with a line feed. -/
def unlines (ls : List Str) : Str := (ls.map (fun l => l ++ ['\n'])).flatten

/-- sufficient conditions on a parsed tree for export/re-parse round
    tripping, with a recursion bound: every stored value is free of ';'
    (a ';' in a value survives parsing whenever a '#' came first, but is
    cut on re-parse) and unchanged by trimming (parsing trims before
    stripping comments, so a stored value can end in whitespace that a
    re-parse would trim); no key starts with '#' or ';' (such a key/value
    line would re-parse as a full-line comment); and every section name is
    nonempty (exporting an empty-named section glues its header to the
    first value line). -/
def rtSafe : Nat → Sec → Bool
  | 0, _ => false
  | fuel + 1, S =>
      S.values.all (fun kv =>
        (!(decide (charAt kv.1 0 = '#'))) && (!(decide (charAt kv.1 0 = ';'))) &&
        (!(decide (';' ∈ kv.2))) && decide (TrimString kv.2 = kv.2)) &&
      S.sections.all (fun nc => (!(decide (nc.1 = []))) && rtSafe fuel nc.2)

/-- descend to the section at a path of names, through mSections. -/
def getSec? : Sec → List Str → Option Sec
  | S, [] => some S
  | S, nm :: p =>
    match alookup nm S.sections with
    | some c => getSec? c p
    | none => none

/-- shape of every key stored by a successful parse: keys are produced as
    TrimString of the part of a trimmed non-header line before its first '=',
    so they are trim-fixed, free of '=' and of line feeds, and do not start
    with an open bracket. -/
def KeyOK (k : Str) : Prop :=
  TrimString k = k ∧ '=' ∉ k ∧ '\n' ∉ k ∧ charAt k 0 ≠ '['

/-- shape of every value stored by a successful parse: values are produced
    as ParseValue of a trimmed string, so they contain no '#' (everything
    from the first '#' on is cut), no line feed, and no leading trimmable
    character. -/
def ValOK (v : Str) : Prop :=
  '#' ∉ v ∧ '\n' ∉ v ∧ v.dropWhile isTrimChar = v

/-- shape of every section name stored by a successful parse: names come
    from a header line after its maximal leading run of open brackets, so
    they contain no line feed and do not start with an open bracket. -/
def NameOK (nm : Str) : Prop :=
  '\n' ∉ nm ∧ charAt nm 0 ≠ '['

/-- well-formedness of a finished section sitting at depth n, covering the
    whole subtree: the stored depth matches, each ordered list is exactly
    the key list of its map (no duplicates, same order), and every stored
    key, value and child name has the shape the parser produces. -/
inductive SecWF : Nat → Sec → Prop where
  | mk : ∀ (n : Nat) (vals : List (Str × Str)) (ovals : List Str)
      (secs : List (Str × Sec)) (osecs : List Str) (d : Nat),
      d = n →
      ovals = vals.map Prod.fst →
      (vals.map Prod.fst).Nodup →
      osecs = secs.map Prod.fst →
      (secs.map Prod.fst).Nodup →
      (∀ kv ∈ vals, KeyOK kv.1 ∧ ValOK kv.2) →
      (∀ nc ∈ secs, NameOK nc.1) →
      (∀ nc ∈ secs, SecWF (n + 1) nc.2) →
      SecWF n (Sec.mk vals ovals secs osecs d)

/-- well-formedness of a frame: the stored parent is a finished section
    except that its mOrderedSections already ends in the name of the open
    child, which is still absent from its mSections. -/
def PSecWF (n : Nat) (nm : Str) (S : Sec) : Prop :=
  S.depth = n ∧
  S.orderedValues = S.values.map Prod.fst ∧
  (S.values.map Prod.fst).Nodup ∧
  S.orderedSections = S.sections.map Prod.fst ++ [nm] ∧
  (S.sections.map Prod.fst ++ [nm]).Nodup ∧
  (∀ kv ∈ S.values, KeyOK kv.1 ∧ ValOK kv.2) ∧
  (∀ nc ∈ S.sections, NameOK nc.1) ∧
  (∀ nc ∈ S.sections, SecWF (n + 1) nc.2) ∧
  NameOK nm

/-- spine invariant: one frame per depth level, the frame below the section
    at depth dp + 1 being its parent at depth dp, down to the root at 0. -/
inductive StackWF : List (Str × Sec) → Nat → Prop where
  | nil : StackWF [] 0
  | cons : ∀ (nm : Str) (p : Sec) (stk : List (Str × Sec)) (dp : Nat),
      PSecWF dp nm p → StackWF stk dp → StackWF ((nm, p) :: stk) (dp + 1)

/-- parser-state invariant: the current section is well formed at its own
    stored depth and the stack is a well-formed spine below it. -/
def StWF (st : PSt) : Prop :=
  SecWF st.cur.depth st.cur ∧ StackWF st.stk st.cur.depth

/-- induction statement for the round trip: processing the exported lines
    of a safe, well-formed section S under a nonempty name nm from any state
    whose cursor is at least as deep as S's parent ends in a state that,
    popped back to the parent's level, is exactly the old parent state with
    S closed into it under nm — the frames below are untouched, and the
    lines after the export block are processed from that final state. -/
def RoundStmt (fuel : Nat) : Prop :=
  ∀ (S : Sec) (nm : Str) (st : PSt) (REST : List Str),
    rtSafe fuel S = true → SecWF S.depth S → 1 ≤ S.depth →
    S.depth ≤ st.cur.depth + 1 → StWF st → NameOK nm → nm ≠ [] →
    alookup nm (popN (st.cur.depth - (S.depth - 1)) st).cur.sections = none →
    ∃ stFin, runLines (exportLinesF fuel S nm ++ REST) st = runLines REST stFin ∧
      StWF stFin ∧ S.depth ≤ stFin.cur.depth ∧
      popN (stFin.cur.depth - (S.depth - 1)) stFin =
        ⟨Sec.mk (popN (st.cur.depth - (S.depth - 1)) st).cur.values
          (popN (st.cur.depth - (S.depth - 1)) st).cur.orderedValues
          ((popN (st.cur.depth - (S.depth - 1)) st).cur.sections ++ [(nm, S)])
          ((popN (st.cur.depth - (S.depth - 1)) st).cur.orderedSections ++ [nm])
          (popN (st.cur.depth - (S.depth - 1)) st).cur.depth,
         (popN (st.cur.depth - (S.depth - 1)) st).stk⟩

/-! Supporting lemmas. -/

theorem dropWhile_subset' {p : Char → Bool} {a : Char} : ∀ {l : Str}, a ∈ l.dropWhile p → a ∈ l := by
  intro l
  induction l with
  | nil => simp [List.dropWhile]
  | cons c t ih =>
    rw [List.dropWhile]
    split
    · intro h
      exact List.mem_cons_of_mem c (ih h)
    · exact fun h => h

theorem trim_subset {a : Char} {s : Str} (h : a ∈ TrimString s) : a ∈ s := by
  unfold TrimString at h
  rw [List.mem_reverse] at h
  have h2 := dropWhile_subset' h
  rw [List.mem_reverse] at h2
  exact dropWhile_subset' h2

theorem dropWhile_suffix' (p : Char → Bool) : ∀ l : Str, ∃ u, l = u ++ l.dropWhile p := by
  intro l
  induction l with
  | nil => exact ⟨[], rfl⟩
  | cons c t ih =>
    rw [List.dropWhile]
    split
    · obtain ⟨u, hu⟩ := ih
      exact ⟨c :: u, by rw [List.cons_append, ← hu]⟩
    · exact ⟨[], rfl⟩

theorem dropWhile_head_false {p : Char → Bool} : ∀ {l : Str} {c : Char} {t : Str},
    l.dropWhile p = c :: t → p c = false := by
  intro l
  induction l with
  | nil => intro c t h; simp [List.dropWhile] at h
  | cons a r ih =>
    intro c t h
    rw [List.dropWhile] at h
    split at h
    · exact ih h
    · rename_i ha
      rw [List.cons.injEq] at h
      rw [← h.1]
      simpa using ha

theorem dropWhile_of_head_false {p : Char → Bool} {l : Str} (h : p (charAt l 0) = false) :
    l.dropWhile p = l := by
  cases l with
  | nil => rfl
  | cons c t =>
    have hc : p c = false := h
    rw [List.dropWhile]
    simp [hc]

theorem trim_prefix_dropWhile (s : Str) :
    ∃ t, s.dropWhile isTrimChar = TrimString s ++ t := by
  unfold TrimString
  obtain ⟨u, hu⟩ := dropWhile_suffix' isTrimChar (s.dropWhile isTrimChar).reverse
  refine ⟨u.reverse, ?_⟩
  calc s.dropWhile isTrimChar
      = (s.dropWhile isTrimChar).reverse.reverse := by rw [List.reverse_reverse]
    _ = (u ++ ((s.dropWhile isTrimChar).reverse.dropWhile isTrimChar)).reverse := by rw [← hu]
    _ = ((s.dropWhile isTrimChar).reverse.dropWhile isTrimChar).reverse ++ u.reverse := by
          rw [List.reverse_append]

theorem trim_left_fixed (s : Str) : (TrimString s).dropWhile isTrimChar = TrimString s := by
  cases htrim : TrimString s with
  | nil => rfl
  | cons c t =>
    obtain ⟨u, hu⟩ := trim_prefix_dropWhile s
    rw [htrim] at hu
    have hc : isTrimChar c = false := dropWhile_head_false (l := s) hu
    exact dropWhile_of_head_false hc

theorem dropWhile_fixed_head_false {p : Char → Bool} {l : Str} (h : l.dropWhile p = l)
    (hne : l ≠ []) : p (charAt l 0) = false := by
  cases l with
  | nil => exact absurd rfl hne
  | cons c t =>
    exact dropWhile_head_false (l := c :: t) (c := c) (t := t) h

theorem trim_idem (s : Str) : TrimString (TrimString s) = TrimString s := by
  have h1 : (TrimString s).dropWhile isTrimChar = TrimString s := trim_left_fixed s
  show (((TrimString s).dropWhile isTrimChar).reverse.dropWhile isTrimChar).reverse = TrimString s
  rw [h1]
  have h2 : (TrimString s).reverse = (s.dropWhile isTrimChar).reverse.dropWhile isTrimChar := by
    unfold TrimString
    rw [List.reverse_reverse]
  rw [h2, List.dropWhile_idempotent, ← h2, List.reverse_reverse]

theorem charAt_take {l : Str} {n : Nat} : l.take n = [] ∨ charAt (l.take n) 0 = charAt l 0 := by
  cases n with
  | zero => exact Or.inl rfl
  | succ m =>
    cases l with
    | nil => exact Or.inl rfl
    | cons c t => exact Or.inr rfl

theorem prefix_dropWhile_fixed {p : Char → Bool} {l : Str} (h : l.dropWhile p = l) (n : Nat) :
    (l.take n).dropWhile p = l.take n := by
  rcases charAt_take (l := l) (n := n) with he | hh
  · rw [he]; rfl
  · cases hl : l.take n with
    | nil => rfl
    | cons c t =>
      have hne : l ≠ [] := by
        intro h0
        rw [h0] at hl
        simp at hl
      have hf := dropWhile_fixed_head_false h hne
      rw [← hh, hl] at hf
      exact dropWhile_of_head_false hf

theorem takeWhile_length_drop (p : Char → Bool) : ∀ l : Str, l.drop (l.takeWhile p).length = l.dropWhile p := by
  intro l
  induction l with
  | nil => rfl
  | cons c t ih =>
    rw [List.takeWhile, List.dropWhile]
    split
    · simpa using ih
    · rfl

theorem alookup_eq_none_iff {α : Type} (k : Str) (l : List (Str × α)) :
    alookup k l = none ↔ k ∉ l.map Prod.fst := by
  induction l with
  | nil => simp [alookup]
  | cons p rest ih =>
    rw [alookup, List.map_cons]
    by_cases h : p.1 = k
    · rw [if_pos h]
      refine ⟨fun hn => ?_, fun hn => ?_⟩
      · exact absurd hn (by simp)
      · exfalso
        apply hn
        rw [← h]
        exact List.mem_cons_self _ _
    · rw [if_neg h, ih]
      constructor
      · intro hn hmem
        rcases List.mem_cons.mp hmem with he | hm
        · exact h he.symm
        · exact hn hm
      · intro hn hm
        exact hn (List.mem_cons_of_mem _ hm)


theorem alookup_mem {α : Type} {k : Str} {l : List (Str × α)} {v : α}
    (h : alookup k l = some v) : (k, v) ∈ l := by
  induction l with
  | nil => simp [alookup] at h
  | cons p rest ih =>
    rw [alookup] at h
    split at h
    · rename_i heq
      rw [Option.some.injEq] at h
      have hp : p = (k, v) := Prod.ext heq h
      rw [← hp]
      exact List.mem_cons_self _ _
    · exact List.mem_cons_of_mem _ (ih h)

theorem findChar_eq_none (c : Char) (s : Str) : findChar c s = none ↔ c ∉ s := by
  induction s with
  | nil => simp [findChar]
  | cons a rest ih =>
    rw [findChar]
    by_cases h : a = c
    · simp [h]
    · have hmap : ((findChar c rest).map Nat.succ = none) ↔ (findChar c rest = none) := by
        cases findChar c rest <;> simp
      simp only [h, if_false, hmap, ih, List.mem_cons, not_or]
      constructor
      · intro hn
        exact ⟨fun hca => h hca.symm, hn⟩
      · exact fun hp => hp.2

theorem findChar_eq_some (c : Char) (s : Str) (i : Nat) (h : findChar c s = some i) :
    ∃ pre suf, s = pre ++ c :: suf ∧ c ∉ pre ∧ pre.length = i := by
  induction s generalizing i with
  | nil => simp [findChar] at h
  | cons a rest ih =>
    by_cases hac : a = c
    · subst hac
      simp [findChar] at h
      exact ⟨[], rest, by simp, by simp, by simp [← h]⟩
    · simp [findChar, hac] at h
      obtain ⟨j, hj, hji⟩ := h
      obtain ⟨pre, suf, hdec, hpre, hlen⟩ := ih j hj
      exact ⟨a :: pre, suf, by simp [hdec], by
        simp only [List.mem_cons, not_or]
        exact ⟨fun hca => hac hca.symm, hpre⟩, by simp [hlen, hji]⟩

theorem tokenizeAux_no_nil (isD : Char → Bool) (s : Str) :
    ∀ (cur : Str) (done : List Str), (∀ t ∈ done, t ≠ []) →
    ∀ t ∈ tokenizeAux isD s cur done, t ≠ [] := by
  induction s with
  | nil =>
    intro cur done hdone t ht
    unfold tokenizeAux at ht
    split at ht
    · rw [List.mem_reverse] at ht
      exact hdone t ht
    · rw [List.mem_reverse] at ht
      rcases List.mem_cons.mp ht with h | h
      · subst h
        rename_i hcur
        rw [List.isEmpty_iff] at hcur
        simpa [List.reverse_eq_nil_iff] using hcur
      · exact hdone t h
  | cons c rest ih =>
    intro cur done hdone t ht
    unfold tokenizeAux at ht
    split at ht
    · exact ih _ _ hdone t ht
    · split at ht
      · exact ih _ _ hdone t ht
      · refine ih _ _ ?_ t ht
        intro u hu
        rcases List.mem_cons.mp hu with h | h
        · subst h
          rename_i hd hcur
          rw [List.isEmpty_iff] at hcur
          simpa [List.reverse_eq_nil_iff] using hcur
        · exact hdone u h

theorem alookup_append_self {α : Type} (k : Str) (l : List (Str × α)) (v : α)
    (h : alookup k l = none) : alookup k (l ++ [(k, v)]) = some v := by
  induction l with
  | nil => simp [alookup]
  | cons p rest ih =>
    rw [alookup] at h
    by_cases hk : p.1 = k
    · simp [hk] at h
    · rw [List.cons_append, alookup]
      simp only [hk, if_false]
      simp only [hk, if_false] at h
      exact ih h

theorem parseValue_subset {a : Char} {s : Str} (h : a ∈ ParseValue s) : a ∈ s := by
  unfold ParseValue at h
  split at h
  · exact List.take_subset _ _ h
  · split at h
    · exact List.take_subset _ _ h
    · exact h

theorem parseValue_no_hash (s : Str) : '#' ∉ ParseValue s := by
  rcases hfind : findChar '#' s with _ | i
  · intro hmem
    exact (findChar_eq_none '#' s).mp hfind (parseValue_subset hmem)
  · obtain ⟨pre, suf, hdec, hpre, hlen⟩ := findChar_eq_some _ _ _ hfind
    have hPV : ParseValue s = s.take i := by
      unfold ParseValue
      simp only [hfind]
    rw [hPV, hdec, ← hlen, List.take_left]
    exact hpre

theorem parseValue_take_or_self (s : Str) : (∃ n, ParseValue s = s.take n) ∨ ParseValue s = s := by
  unfold ParseValue
  split
  · exact Or.inl ⟨_, rfl⟩
  · split
    · exact Or.inl ⟨_, rfl⟩
    · exact Or.inr rfl

theorem nodup_snoc {α : Type} {l : List α} {a : α} (hl : l.Nodup) (ha : a ∉ l) :
    (l ++ [a]).Nodup := by
  induction l with
  | nil => simp
  | cons c t ih =>
    rw [List.cons_append, List.nodup_cons]
    rw [List.nodup_cons] at hl
    refine ⟨?_, ih hl.2 (fun h => ha (List.mem_cons_of_mem _ h))⟩
    intro hmem
    rcases List.mem_append.mp hmem with h | h
    · exact hl.1 h
    · apply ha
      rw [List.mem_singleton] at h
      rw [h]
      exact List.mem_cons_self _ _

theorem secWF_fields {n : Nat} {S : Sec} (h : SecWF n S) :
    S.depth = n ∧
    S.orderedValues = S.values.map Prod.fst ∧
    (S.values.map Prod.fst).Nodup ∧
    S.orderedSections = S.sections.map Prod.fst ∧
    (S.sections.map Prod.fst).Nodup ∧
    (∀ kv ∈ S.values, KeyOK kv.1 ∧ ValOK kv.2) ∧
    (∀ nc ∈ S.sections, NameOK nc.1) ∧
    (∀ nc ∈ S.sections, SecWF (n + 1) nc.2) := by
  cases h with
  | mk n vals ovals secs osecs d h1 h2 h3 h4 h5 h6 h7 h8 =>
    exact ⟨h1, h2, h3, h4, h5, h6, h7, h8⟩

theorem secWF_intro {n : Nat} {S : Sec}
    (h1 : S.depth = n)
    (h2 : S.orderedValues = S.values.map Prod.fst)
    (h3 : (S.values.map Prod.fst).Nodup)
    (h4 : S.orderedSections = S.sections.map Prod.fst)
    (h5 : (S.sections.map Prod.fst).Nodup)
    (h6 : ∀ kv ∈ S.values, KeyOK kv.1 ∧ ValOK kv.2)
    (h7 : ∀ nc ∈ S.sections, NameOK nc.1)
    (h8 : ∀ nc ∈ S.sections, SecWF (n + 1) nc.2) : SecWF n S := by
  cases S with
  | mk vals ovals secs osecs d =>
    exact SecWF.mk n vals ovals secs osecs d h1 h2 h3 h4 h5 h6 h7 h8

theorem stackWF_length {stk : List (Str × Sec)} {n : Nat} (h : StackWF stk n) :
    stk.length = n := by
  induction h with
  | nil => rfl
  | cons nm p stk dp hp hs ih => simpa using ih

theorem stackWF_cons_inv {nm : Str} {p : Sec} {stk : List (Str × Sec)} {n : Nat}
    (h : StackWF ((nm, p) :: stk) n) :
    ∃ dp, n = dp + 1 ∧ PSecWF dp nm p ∧ StackWF stk dp := by
  cases h with
  | cons _ _ _ dp hp hs => exact ⟨dp, rfl, hp, hs⟩

theorem pop1_wf {cur : Sec} {nm : Str} {p : Sec} {stk : List (Str × Sec)}
    (hcur : SecWF cur.depth cur) (hstk : StackWF ((nm, p) :: stk) cur.depth) :
    StWF (pop1 ⟨cur, (nm, p) :: stk⟩) ∧
    (pop1 ⟨cur, (nm, p) :: stk⟩).cur.depth + 1 = cur.depth := by
  obtain ⟨dp, hdp, hp, hs⟩ := stackWF_cons_inv hstk
  obtain ⟨hpd, hpov, hpvn, hpos, hposn, hpkv, hpnm, hpsec, hpnmok⟩ := hp
  have hnew : SecWF dp (Sec.mk p.values p.orderedValues (p.sections ++ [(nm, cur)])
      p.orderedSections p.depth) := by
    apply secWF_intro
    · exact hpd
    · exact hpov
    · exact hpvn
    · show p.orderedSections = (p.sections ++ [(nm, cur)]).map Prod.fst
      rw [List.map_append, hpos]
      rfl
    · show ((p.sections ++ [(nm, cur)]).map Prod.fst).Nodup
      rw [List.map_append]
      exact hposn
    · exact hpkv
    · intro nc hnc
      rcases List.mem_append.mp hnc with h | h
      · exact hpnm nc h
      · rw [List.mem_singleton] at h
        rw [h]
        exact hpnmok
    · intro nc hnc
      rcases List.mem_append.mp hnc with h | h
      · exact hpsec nc h
      · rw [List.mem_singleton] at h
        rw [h]
        rw [hdp] at hcur
        exact hcur
  constructor
  · constructor
    · show SecWF p.depth _
      rw [hpd]
      exact hnew
    · show StackWF stk p.depth
      rw [hpd]
      exact hs
  · show p.depth + 1 = cur.depth
    rw [hpd, hdp]

theorem popN_wf {k : Nat} : ∀ {st : PSt}, StWF st → k ≤ st.cur.depth →
    StWF (popN k st) ∧ (popN k st).cur.depth = st.cur.depth - k := by
  induction k with
  | zero =>
    intro st h _
    exact ⟨h, rfl⟩
  | succ m ih =>
    intro st hwf hle
    cases st with
    | mk cur stk =>
      cases stk with
      | nil =>
        exfalso
        have hlen := stackWF_length hwf.2
        simp only [List.length_nil] at hlen
        dsimp only at hle hlen
        omega
      | cons f rest =>
        cases f with
        | mk nm p =>
          have hcur : SecWF cur.depth cur := hwf.1
          have hstk : StackWF ((nm, p) :: rest) cur.depth := hwf.2
          obtain ⟨hp1, hd1⟩ := pop1_wf hcur hstk
          rw [popN]
          dsimp only at hle ⊢
          have hle' : m ≤ (pop1 ⟨cur, (nm, p) :: rest⟩).cur.depth := by omega
          obtain ⟨hw2, hd2⟩ := ih hp1 hle'
          refine ⟨hw2, ?_⟩
          rw [hd2]
          omega

theorem charAt_trim_of_fixed {l : Str} (hfix : l.dropWhile isTrimChar = l) :
    TrimString l = [] ∨ charAt (TrimString l) 0 = charAt l 0 := by
  obtain ⟨t, ht⟩ := trim_prefix_dropWhile l
  rw [hfix] at ht
  cases htr : TrimString l with
  | nil => exact Or.inl rfl
  | cons c u =>
    right
    rw [htr] at ht
    rw [ht]
    rfl

theorem valOK_of_parse {y : Str} (hnl : '\n' ∉ y) : ValOK (ParseValue (TrimString y)) := by
  refine ⟨parseValue_no_hash _, ?_, ?_⟩
  · intro hmem
    exact hnl (trim_subset (parseValue_subset hmem))
  · rcases parseValue_take_or_self (TrimString y) with ⟨m, hm⟩ | hself
    · rw [hm]
      exact prefix_dropWhile_fixed (trim_left_fixed y) m
    · rw [hself]
      exact trim_left_fixed y

theorem keyOK_of_parse {line : Str} {n : Nat}
    (hnl : '\n' ∉ line) (hfix : TrimString line = line)
    (hnotbr : charAt line 0 ≠ '[') (hfind : findChar '=' line = some n) :
    KeyOK (TrimString (line.take n)) := by
  obtain ⟨pre, suf, hdec, hpre, hlen⟩ := findChar_eq_some _ _ _ hfind
  have htake : line.take n = pre := by
    rw [hdec, ← hlen, List.take_left]
  refine ⟨trim_idem _, ?_, ?_, ?_⟩
  · intro hmem
    exact hpre (by rw [← htake]; exact trim_subset hmem)
  · intro hmem
    exact hnl (List.take_subset _ _ (trim_subset hmem))
  · have hlfix : line.dropWhile isTrimChar = line := by
      have := trim_left_fixed line
      rw [hfix] at this
      exact this
    have htfix : (line.take n).dropWhile isTrimChar = line.take n :=
      prefix_dropWhile_fixed hlfix n
    rcases charAt_trim_of_fixed htfix with he | hh
    · rw [he]
      decide
    · rw [hh]
      rcases charAt_take (l := line) (n := n) with he | hh2
      · rw [he]
        decide
      · rw [hh2]
        exact hnotbr

theorem secWF_addValue {n : Nat} {S : Sec} {k v : Str} (hwf : SecWF n S)
    (hk : k ∉ S.values.map Prod.fst) (hkOK : KeyOK k) (hvOK : ValOK v) :
    SecWF n (Sec.mk (S.values ++ [(k, v)]) (S.orderedValues ++ [k])
      S.sections S.orderedSections S.depth) := by
  obtain ⟨h1, h2, h3, h4, h5, h6, h7, h8⟩ := secWF_fields hwf
  apply secWF_intro
  · show S.depth = n
    exact h1
  · show S.orderedValues ++ [k] = (S.values ++ [(k, v)]).map Prod.fst
    rw [List.map_append, h2]
    rfl
  · show ((S.values ++ [(k, v)]).map Prod.fst).Nodup
    rw [List.map_append]
    exact nodup_snoc h3 hk
  · show S.orderedSections = S.sections.map Prod.fst
    exact h4
  · show (S.sections.map Prod.fst).Nodup
    exact h5
  · show ∀ kv ∈ S.values ++ [(k, v)], KeyOK kv.1 ∧ ValOK kv.2
    intro kv hkv
    rcases List.mem_append.mp hkv with h | h
    · exact h6 kv h
    · rw [List.mem_singleton] at h
      rw [h]
      exact ⟨hkOK, hvOK⟩
  · show ∀ nc ∈ S.sections, NameOK nc.1
    exact h7
  · show ∀ nc ∈ S.sections, SecWF (n + 1) nc.2
    exact h8

theorem psecWF_open {n : Nat} {S : Sec} {nm : Str} (hwf : SecWF n S)
    (hnm : nm ∉ S.sections.map Prod.fst) (hnmOK : NameOK nm) :
    PSecWF n nm (Sec.mk S.values S.orderedValues S.sections
      (S.orderedSections ++ [nm]) S.depth) := by
  obtain ⟨h1, h2, h3, h4, h5, h6, h7, h8⟩ := secWF_fields hwf
  refine ⟨h1, h2, h3, ?_, ?_, h6, h7, h8, hnmOK⟩
  · show S.orderedSections ++ [nm] = S.sections.map Prod.fst ++ [nm]
    rw [h4]
  · show (S.sections.map Prod.fst ++ [nm]).Nodup
    exact nodup_snoc h5 hnm

theorem keyvalStep_wf {line : Str} {st st' : PSt}
    (hnl : '\n' ∉ line) (hfix : TrimString line = line)
    (hnotbr : charAt line 0 ≠ '[')
    (hwf : StWF st) (hok : keyvalStep line st = .ok st') : StWF st' := by
  cases hfind : findChar '=' line with
  | none =>
    unfold keyvalStep at hok
    rw [hfind] at hok
    cases hok
  | some n =>
    unfold keyvalStep at hok
    rw [hfind] at hok
    simp only at hok
    cases hdup : alookup (TrimString (line.take n)) st.cur.values with
    | some v =>
      rw [hdup] at hok
      cases hok
    | none =>
      rw [hdup] at hok
      rw [Except.ok.injEq] at hok
      obtain ⟨hcd, hcov, hcvn, hcos, hcsn, hckv, hcnm, hcsec⟩ := secWF_fields hwf.1
      have hkey : (TrimString (line.take n)) ∉ st.cur.values.map Prod.fst :=
        (alookup_eq_none_iff _ _).mp hdup
      have hnewcur := secWF_addValue (v := ParseValue (TrimString (line.drop (n + 1)))) hwf.1
        hkey (keyOK_of_parse hnl hfix hnotbr hfind)
        (valOK_of_parse (y := line.drop (n + 1)) (fun hmem => hnl (List.drop_subset _ _ hmem)))
      rw [← hok]
      exact ⟨hnewcur, hwf.2⟩

theorem headerName_subset {line : Str} {d : Nat} {a : Char}
    (h : a ∈ headerName line d) : a ∈ line := by
  unfold headerName at h
  split at h
  · exact List.drop_subset _ _ (List.take_subset _ _ h)
  · exact List.drop_subset _ _ h

theorem headerName_head (line : Str) :
    charAt (headerName line ((line.takeWhile (fun c => c = '[')).length)) 0 ≠ '[' := by
  have hdrop : line.drop ((line.takeWhile (fun c => c = '[')).length) =
      line.dropWhile (fun c => c = '[') := takeWhile_length_drop _ line
  have hd : charAt (line.dropWhile (fun c => c = '[')) 0 ≠ '[' := by
    cases hw : line.dropWhile (fun c => c = '[') with
    | nil => decide
    | cons c t =>
      have := dropWhile_head_false (l := line) hw
      intro hc
      rw [show charAt (c :: t) 0 = c from rfl] at hc
      rw [hc] at this
      simp at this
  unfold headerName
  split
  · rcases charAt_take (l := line.drop ((line.takeWhile (fun c => c = '[')).length))
        (n := line.length - 2 * (line.takeWhile (fun c => c = '[')).length) with he | hh
    · rw [he]
      decide
    · rw [hh, hdrop]
      exact hd
  · rw [hdrop]
    exact hd

theorem headerStep_wf {line : Str} {st st' : PSt}
    (hnl : '\n' ∉ line)
    (hbr : charAt line 0 = '[') (hne : line ≠ [])
    (hwf : StWF st) (hok : headerStep line st = .ok st') : StWF st' := by
  have hd1 : 1 ≤ (line.takeWhile (fun c => c = '[')).length := by
    cases line with
    | nil => exact absurd rfl hne
    | cons c t =>
      have hc : c = '[' := hbr
      rw [List.takeWhile]
      simp [hc]
  unfold headerStep at hok
  by_cases hdeep : st.cur.depth + 1 < (line.takeWhile (fun c => c = '[')).length
  · rw [if_pos hdeep] at hok
    cases hok
  · rw [if_neg hdeep] at hok
    simp only at hok
    -- the target state: either the current one or the one after the pops
    have htgt : ∀ st2 : PSt, StWF st2 →
        st2.cur.depth + 1 = (line.takeWhile (fun c => c = '[')).length →
        (match alookup (headerName line ((line.takeWhile (fun c => c = '[')).length))
            st2.cur.sections with
          | some _ => Except.error PErr.duplicateSection
          | none => Except.ok (⟨emptySec ((line.takeWhile (fun c => c = '[')).length),
              (headerName line ((line.takeWhile (fun c => c = '[')).length),
               Sec.mk st2.cur.values st2.cur.orderedValues st2.cur.sections
                 (st2.cur.orderedSections ++
                   [headerName line ((line.takeWhile (fun c => c = '[')).length)])
                 st2.cur.depth) :: st2.stk⟩ : PSt)) = .ok st' → StWF st' := by
      intro st2 hwf2 hdepth2 hok2
      cases hdup : alookup (headerName line ((line.takeWhile (fun c => c = '[')).length))
          st2.cur.sections with
      | some _ =>
        rw [hdup] at hok2
        cases hok2
      | none =>
        rw [hdup] at hok2
        rw [Except.ok.injEq] at hok2
        obtain ⟨hcd, hcov, hcvn, hcos, hcsn, hckv, hcnm, hcsec⟩ := secWF_fields hwf2.1
        have hnmem : headerName line ((line.takeWhile (fun c => c = '[')).length) ∉
            st2.cur.sections.map Prod.fst := (alookup_eq_none_iff _ _).mp hdup
        rw [← hok2]
        constructor
        · show SecWF (emptySec ((line.takeWhile (fun c => c = '[')).length)).depth _
          apply secWF_intro <;> simp [emptySec, Sec.values, Sec.sections,
            Sec.orderedValues, Sec.orderedSections, Sec.depth]
        · show StackWF _ (emptySec ((line.takeWhile (fun c => c = '[')).length)).depth
          have hdeq : (emptySec ((line.takeWhile (fun c => c = '[')).length)).depth =
              st2.cur.depth + 1 := by
            show (line.takeWhile (fun c => c = '[')).length = st2.cur.depth + 1
            omega
          rw [hdeq]
          apply StackWF.cons
          · exact psecWF_open hwf2.1 hnmem
              ⟨fun hmem => hnl (headerName_subset hmem), headerName_head line⟩
          · exact hwf2.2
    by_cases heq : st.cur.depth + 1 = (line.takeWhile (fun c => c = '[')).length
    · rw [if_pos heq] at hok
      exact htgt st hwf heq hok
    · rw [if_neg heq] at hok
      have hle : (line.takeWhile (fun c => c = '[')).length ≤ st.cur.depth := by omega
      have hk : st.cur.depth - (line.takeWhile (fun c => c = '[')).length + 1 ≤
          st.cur.depth := by omega
      obtain ⟨hwfp, hdp⟩ := popN_wf hwf hk
      exact htgt _ hwfp (by omega) hok

theorem lineStep_wf {raw : Str} {st st' : PSt}
    (hnl : '\n' ∉ raw) (hwf : StWF st) (hok : lineStep st raw = .ok st') : StWF st' := by
  unfold lineStep at hok
  split at hok
  · rw [Except.ok.injEq] at hok
    rw [← hok]
    exact hwf
  · have hnl' : '\n' ∉ TrimString raw := fun h => hnl (trim_subset h)
    split at hok
    · rw [Except.ok.injEq] at hok
      rw [← hok]
      exact hwf
    · rename_i hempty
      split at hok
      · rename_i hbr
        exact headerStep_wf hnl' hbr (by
          intro h0
          rw [h0] at hempty
          exact hempty rfl) hwf hok
      · rename_i hbr
        exact keyvalStep_wf hnl' (trim_idem raw) hbr hwf hok

theorem runLines_wf : ∀ (lines : List Str) (st st' : PSt),
    (∀ l ∈ lines, '\n' ∉ l) → StWF st → runLines lines st = .ok st' → StWF st' := by
  intro lines
  induction lines with
  | nil =>
    intro st st' _ hwf hok
    rw [runLines, Except.ok.injEq] at hok
    rw [← hok]
    exact hwf
  | cons l ls ih =>
    intro st st' hnl hwf hok
    rw [runLines] at hok
    cases hstep : lineStep st l with
    | error e =>
      rw [hstep] at hok
      cases hok
    | ok st1 =>
      rw [hstep] at hok
      have hwf1 := lineStep_wf (hnl l (List.mem_cons_self _ _)) hwf hstep
      exact ih st1 st' (fun x hx => hnl x (List.mem_cons_of_mem _ hx)) hwf1 hok

theorem getLinesAux_no_newline : ∀ (s acc : Str), '\n' ∉ acc →
    ∀ l ∈ getLinesAux s acc, '\n' ∉ l := by
  intro s
  induction s with
  | nil =>
    intro acc hacc l hl
    rw [getLinesAux] at hl
    rw [List.mem_singleton] at hl
    rw [hl, List.mem_reverse]
    exact hacc
  | cons c rest ih =>
    intro acc hacc l hl
    rw [getLinesAux] at hl
    by_cases hc : c = '\n'
    · rw [if_pos hc] at hl
      by_cases hre : rest.isEmpty
      · rw [if_pos hre] at hl
        rw [List.mem_singleton] at hl
        rw [hl, List.mem_reverse]
        exact hacc
      · rw [if_neg hre] at hl
        rcases List.mem_cons.mp hl with h | h
        · rw [h, List.mem_reverse]
          exact hacc
        · exact ih [] (by simp) l h
    · rw [if_neg hc] at hl
      refine ih (c :: acc) ?_ l hl
      intro hmem
      rcases List.mem_cons.mp hmem with h | h
      · exact hc h.symm
      · exact hacc h


theorem getLines_no_newline {s : Str} : ∀ l ∈ getLines s, '\n' ∉ l := by
  cases s with
  | nil => intro l hl; cases hl
  | cons c t => exact getLinesAux_no_newline (c :: t) [] (by simp)

theorem closeAll_wf {st : PSt} (hwf : StWF st) : SecWF 0 (closeAll st) := by
  have hlen := stackWF_length hwf.2
  obtain ⟨hw, hd⟩ := popN_wf (k := st.stk.length) hwf (by omega)
  unfold closeAll
  have h0 : (popN st.stk.length st).cur.depth = 0 := by omega
  have := hw.1
  rw [h0] at this
  exact this

theorem parse_wf {text : Str} {T : Sec} (h : parseConfig text = .ok T) : SecWF 0 T := by
  unfold parseConfig at h
  cases hrun : runLines (getLines text) ⟨emptySec 0, []⟩ with
  | error e =>
    rw [hrun] at h
    cases h
  | ok st1 =>
    rw [hrun] at h
    simp only [Except.map] at h
    rw [Except.ok.injEq] at h
    have hinit : StWF ⟨emptySec 0, []⟩ := by
      constructor
      · apply secWF_intro <;> simp [emptySec, Sec.values, Sec.sections,
          Sec.orderedValues, Sec.orderedSections, Sec.depth]
      · exact StackWF.nil
    have hwf1 := runLines_wf (getLines text) _ _ (fun l hl => getLines_no_newline l hl)
      hinit hrun
    rw [← h]
    exact closeAll_wf hwf1

theorem secWF_getSec {p : List Str} : ∀ {n : Nat} {S S' : Sec},
    SecWF n S → getSec? S p = some S' → SecWF (n + p.length) S' := by
  induction p with
  | nil =>
    intro n S S' hwf h
    rw [getSec?, Option.some.injEq] at h
    rw [← h]
    simpa using hwf
  | cons nm q ih =>
    intro n S S' hwf h
    rw [getSec?] at h
    cases hl : alookup nm S.sections with
    | none =>
      rw [hl] at h
      cases h
    | some c =>
      rw [hl] at h
      have hmem := alookup_mem hl
      have hc := (secWF_fields hwf).2.2.2.2.2.2.2 (nm, c) hmem
      have := ih hc h
      have harith : n + 1 + q.length = n + (q.length + 1) := by omega
      rw [harith] at this
      simpa using this

theorem Sec.eta (S : Sec) :
    Sec.mk S.values S.orderedValues S.sections S.orderedSections S.depth = S := by
  cases S
  rfl

theorem popN_add (a b : Nat) : ∀ st : PSt, popN (a + b) st = popN b (popN a st) := by
  induction a with
  | zero =>
    intro st
    rw [Nat.zero_add]
    rfl
  | succ m ih =>
    intro st
    have h1 : m + 1 + b = (m + b) + 1 := by omega
    rw [h1, popN, popN, ih]

theorem runLines_cons_ok {st st1 : PSt} {l : Str} {ls : List Str}
    (h : lineStep st l = .ok st1) : runLines (l :: ls) st = runLines ls st1 := by
  rw [runLines, h]
  rfl

theorem lineStep_blank (st : PSt) : lineStep st [] = .ok st := by
  rfl

theorem nodup_middle {α : Type} {y : α} : ∀ {xs ys : List α}, (xs ++ y :: ys).Nodup → y ∉ xs := by
  intro xs
  induction xs with
  | nil => intro ys _ h; cases h
  | cons x t ih =>
    intro ys hnd hmem
    rw [List.cons_append, List.nodup_cons] at hnd
    rcases List.mem_cons.mp hmem with h | h
    · exact hnd.1 (by rw [h]; exact List.mem_append_right _ (List.mem_cons_self _ _))
    · exact ih hnd.2 h

theorem dropWhile_length_eq {p : Char → Bool} {l : Str} (h : (l.dropWhile p).length = l.length) :
    l.dropWhile p = l := by
  obtain ⟨u, hu⟩ := dropWhile_suffix' p l
  have hlen := congrArg List.length hu
  rw [List.length_append] at hlen
  have hu0 : u.length = 0 := by omega
  rw [List.length_eq_zero] at hu0
  rw [hu0, List.nil_append] at hu
  exact hu.symm

theorem trim_fixed_parts {l : Str} (h : TrimString l = l) :
    l.dropWhile isTrimChar = l ∧ l.reverse.dropWhile isTrimChar = l.reverse := by
  have hlen : (TrimString l).length = l.length := by rw [h]
  have h1 : (TrimString l).length ≤ ((l.dropWhile isTrimChar).reverse.dropWhile isTrimChar).length := by
    unfold TrimString
    rw [List.length_reverse]
  have h2 : ((l.dropWhile isTrimChar).reverse.dropWhile isTrimChar).length ≤
      (l.dropWhile isTrimChar).length := by
    obtain ⟨u, hu⟩ := dropWhile_suffix' isTrimChar (l.dropWhile isTrimChar).reverse
    have hl2 := congrArg List.length hu
    rw [List.length_append, List.length_reverse] at hl2
    omega
  have h3 : (l.dropWhile isTrimChar).length ≤ l.length := by
    obtain ⟨u, hu⟩ := dropWhile_suffix' isTrimChar l
    have hl3 := congrArg List.length hu
    rw [List.length_append] at hl3
    omega
  have hfix : l.dropWhile isTrimChar = l := dropWhile_length_eq (by omega)
  refine ⟨hfix, ?_⟩
  have : TrimString l = (l.reverse.dropWhile isTrimChar).reverse := by
    unfold TrimString
    rw [hfix]
  rw [h] at this
  calc l.reverse.dropWhile isTrimChar
      = (l.reverse.dropWhile isTrimChar).reverse.reverse := by rw [List.reverse_reverse]
    _ = l.reverse := by rw [← this]

theorem trim_fixed_of_ends {l : Str} (h1 : l.dropWhile isTrimChar = l)
    (h2 : l.reverse.dropWhile isTrimChar = l.reverse) : TrimString l = l := by
  unfold TrimString
  rw [h1, h2, List.reverse_reverse]

theorem findChar_append {c : Char} : ∀ {k : Str}, c ∉ k →
    ∀ v : Str, findChar c (k ++ c :: v) = some k.length := by
  intro k
  induction k with
  | nil =>
    intro _ v
    rw [List.nil_append, findChar, if_pos rfl]
    rfl
  | cons a t ih =>
    intro hmem v
    have ha : a ≠ c := fun h => hmem (by rw [h]; exact List.mem_cons_self _ _)
    rw [List.cons_append, findChar, if_neg ha,
      ih (fun h => hmem (List.mem_cons_of_mem _ h)) v]
    rfl

theorem map_fst_lookup {α β : Type} (f : Str → α → β) (dflt : α) :
    ∀ (l : List (Str × α)), (l.map Prod.fst).Nodup →
    (l.map Prod.fst).map (fun k => f k ((alookup k l).getD dflt)) =
      l.map (fun kv => f kv.1 kv.2) := by
  intro l
  induction l with
  | nil => intro _; rfl
  | cons p rest ih =>
    intro hnd
    rw [List.map_cons, List.nodup_cons] at hnd
    rw [List.map_cons, List.map_cons, List.map_cons]
    have hhead : alookup p.1 (p :: rest) = some p.2 := by
      rw [alookup.eq_def]
      cases p with
      | mk a b => simp
    rw [hhead]
    have htail : (rest.map Prod.fst).map (fun k => f k ((alookup k (p :: rest)).getD dflt)) =
        (rest.map Prod.fst).map (fun k => f k ((alookup k rest).getD dflt)) := by
      apply List.map_congr_left
      intro k hk
      have hne : p.1 ≠ k := fun h => hnd.1 (by rw [h]; exact hk)
      rw [alookup.eq_def]
      cases p with
      | mk a b =>
        simp only at hne
        simp [hne]
    rw [htail, ih hnd.2]
    rfl

theorem takeWhile_replicate_open : ∀ (d : Nat) (r : Str),
    (List.replicate d '[' ++ r).takeWhile (fun c => c = '[') =
      List.replicate d '[' ++ r.takeWhile (fun c => c = '[') := by
  intro d
  induction d with
  | zero => intro r; rfl
  | succ m ih =>
    intro r
    simp [List.replicate_succ, List.takeWhile_cons, ih]

theorem takeWhile_head_ne {r : Str} (h : charAt r 0 ≠ '[') :
    r.takeWhile (fun c => c = '[') = [] := by
  cases r with
  | nil => rfl
  | cons c t =>
    have hc : c ≠ '[' := h
    rw [List.takeWhile_cons]
    simp [hc]

theorem unlines_append (a b : List Str) : unlines (a ++ b) = unlines a ++ unlines b := by
  unfold unlines
  rw [List.map_append, List.flatten_append]

theorem unlines_flatten : ∀ ls : List (List Str),
    unlines ls.flatten = (ls.map unlines).flatten := by
  intro ls
  induction ls with
  | nil => rfl
  | cons a rest ih =>
    rw [List.flatten_cons, unlines_append, List.map_cons, List.flatten_cons, ih]

theorem unlines_ne_nil {ls : List Str} (h : ls ≠ []) : unlines ls ≠ [] := by
  cases ls with
  | nil => exact absurd rfl h
  | cons a rest =>
    unfold unlines
    rw [List.map_cons, List.flatten_cons]
    cases a with
    | nil => simp
    | cons c t => simp

theorem getLinesAux_mid : ∀ (l : Str) (acc : Str) (rest : Str), '\n' ∉ l → rest ≠ [] →
    getLinesAux (l ++ '\n' :: rest) acc = (acc.reverse ++ l) :: getLinesAux rest [] := by
  intro l
  induction l with
  | nil =>
    intro acc rest _ hne
    cases rest with
    | nil => exact absurd rfl hne
    | cons r0 rs =>
      rw [List.nil_append, List.append_nil]
      rfl
  | cons c t ih =>
    intro acc rest hnl hne
    have hc : c ≠ '\n' := fun h => hnl (by rw [h]; exact List.mem_cons_self _ _)
    rw [List.cons_append, getLinesAux, if_neg hc,
      ih (c :: acc) rest (fun h => hnl (List.mem_cons_of_mem _ h)) hne]
    rw [List.reverse_cons, List.append_assoc]
    rfl

theorem getLinesAux_last : ∀ (l : Str) (acc : Str), '\n' ∉ l →
    getLinesAux (l ++ ['\n']) acc = [acc.reverse ++ l] := by
  intro l
  induction l with
  | nil =>
    intro acc _
    rw [List.nil_append, List.append_nil]
    rfl
  | cons c t ih =>
    intro acc hnl
    have hc : c ≠ '\n' := fun h => hnl (by rw [h]; exact List.mem_cons_self _ _)
    rw [List.cons_append, getLinesAux, if_neg hc,
      ih (c :: acc) (fun h => hnl (List.mem_cons_of_mem _ h))]
    rw [List.reverse_cons, List.append_assoc]
    rfl

theorem getLines_unlines : ∀ ls : List Str, (∀ l ∈ ls, '\n' ∉ l) →
    getLines (unlines ls) = ls := by
  intro ls
  induction ls with
  | nil => intro _; rfl
  | cons l rest ih =>
    intro hnl
    have hl : '\n' ∉ l := hnl l (List.mem_cons_self _ _)
    have hrest : ∀ x ∈ rest, '\n' ∉ x := fun x hx => hnl x (List.mem_cons_of_mem _ hx)
    have hu : unlines (l :: rest) = l ++ '\n' :: unlines rest := by
      unfold unlines
      rw [List.map_cons, List.flatten_cons, List.append_assoc]
      rfl
    rw [hu]
    cases hr : rest with
    | nil =>
      show getLines (l ++ ['\n']) = [l]
      have hne : l ++ ['\n'] ≠ [] := by simp
      rw [getLines.eq_def]
      split
      · rename_i heq
        exact absurd heq hne
      · rw [getLinesAux_last l [] hl]
        rfl
    | cons r0 rs =>
      have hne2 : unlines rest ≠ [] := by
        rw [hr]
        exact unlines_ne_nil (by simp)
      have hne : l ++ '\n' :: unlines rest ≠ [] := by simp
      rw [← hr]
      rw [getLines.eq_def]
      split
      · rename_i heq
        exact absurd heq hne
      · rw [getLinesAux_mid l [] (unlines rest) hl hne2]
        have : getLinesAux (unlines rest) [] = getLines (unlines rest) := by
          rw [getLines.eq_def]
          split
          · rename_i heq
            exact absurd heq hne2
          · rfl
        rw [this, ih hrest]
        rfl

theorem secSize_pos (S : Sec) : 1 ≤ secSize S := by
  cases S with
  | mk a b c d e =>
    rw [secSize]
    omega

theorem rtSafe_succ {fuel : Nat} {S : Sec} (h : rtSafe (fuel + 1) S = true) :
    (∀ kv ∈ S.values, charAt kv.1 0 ≠ '#' ∧ charAt kv.1 0 ≠ ';' ∧ ';' ∉ kv.2 ∧
      TrimString kv.2 = kv.2) ∧
    (∀ nc ∈ S.sections, nc.1 ≠ [] ∧ rtSafe fuel nc.2 = true) := by
  rw [rtSafe] at h
  rw [Bool.and_eq_true, List.all_eq_true, List.all_eq_true] at h
  constructor
  · intro kv hkv
    have := h.1 kv hkv
    simp only [Bool.and_eq_true, Bool.not_eq_true', decide_eq_false_iff_not,
      decide_eq_true_eq] at this
    exact ⟨this.1.1.1, this.1.1.2, this.1.2, this.2⟩
  · intro nc hnc
    have := h.2 nc hnc
    simp only [Bool.and_eq_true, Bool.not_eq_true', decide_eq_false_iff_not] at this
    exact this

theorem charAt_cons_append (c : Char) (t r : Str) : charAt ((c :: t) ++ r) 0 = c := rfl

theorem charAt_cons (c : Char) (t : Str) : charAt (c :: t) 0 = c := rfl

theorem lineStep_value (k v : Str) (st : PSt)
    (hkOK : KeyOK k) (hvOK : ValOK v)
    (hk2 : charAt k 0 ≠ '#') (hk3 : charAt k 0 ≠ ';')
    (hv2 : ';' ∉ v) (hv3 : TrimString v = v)
    (hnone : alookup k st.cur.values = none) :
    lineStep st (k ++ '=' :: v) =
      .ok ⟨Sec.mk (st.cur.values ++ [(k, v)]) (st.cur.orderedValues ++ [k])
        st.cur.sections st.cur.orderedSections st.cur.depth, st.stk⟩ := by
  have hch : charAt (k ++ '=' :: v) 0 ≠ '#' ∧ charAt (k ++ '=' :: v) 0 ≠ ';' ∧
      charAt (k ++ '=' :: v) 0 ≠ '[' := by
    cases k with
    | nil =>
      rw [List.nil_append, charAt_cons]
      exact ⟨by decide, by decide, by decide⟩
    | cons c t =>
      rw [charAt_cons_append]
      exact ⟨hk2, hk3, hkOK.2.2.2⟩
  have hline_ne : k ++ '=' :: v ≠ [] := by
    cases k <;> simp
  have hTS : TrimString (k ++ '=' :: v) = k ++ '=' :: v := by
    apply trim_fixed_of_ends
    · apply dropWhile_of_head_false
      cases k with
      | nil =>
        rw [List.nil_append, charAt_cons]
        decide
      | cons c t =>
        rw [charAt_cons_append]
        have hkfix := (trim_fixed_parts hkOK.1).1
        exact dropWhile_fixed_head_false hkfix (by simp)
    · apply dropWhile_of_head_false
      have hrev : (k ++ '=' :: v).reverse = (v.reverse ++ ['=']) ++ k.reverse := by
        rw [List.reverse_append, List.reverse_cons]
      rw [hrev]
      cases hv : v.reverse with
      | nil =>
        rw [List.nil_append, charAt_cons_append]
        decide
      | cons c t =>
        rw [List.cons_append, charAt_cons_append]
        have hvfix := (trim_fixed_parts hv3).2
        rw [hv] at hvfix
        have := dropWhile_fixed_head_false hvfix (by simp)
        rw [show charAt (c :: t) 0 = c from rfl] at this
        exact this
  have hf : findChar '=' (k ++ '=' :: v) = some k.length := findChar_append hkOK.2.1 v
  have htake : (k ++ '=' :: v).take k.length = k := List.take_left _ _
  have hdrop : (k ++ '=' :: v).drop (k.length + 1) = v := by
    have h1 : k ++ '=' :: v = (k ++ ['=']) ++ v := by
      rw [List.append_assoc]
      rfl
    have h2 : k.length + 1 = (k ++ ['=']).length := by simp
    rw [h1, h2, List.drop_left]
  have hPV : ParseValue v = v := by
    unfold ParseValue
    rw [(findChar_eq_none '#' v).mpr hvOK.1, (findChar_eq_none ';' v).mpr hv2]
  unfold lineStep
  split
  · rename_i hcond
    rw [Bool.or_eq_true, decide_eq_true_eq, decide_eq_true_eq] at hcond
    rcases hcond with h | h
    · exact absurd h hch.1
    · exact absurd h hch.2.1
  · rw [hTS]
    split
    · rename_i hemp
      rw [List.isEmpty_iff] at hemp
      exact absurd hemp hline_ne
    · split
      · rename_i hbr
        exact absurd hbr hch.2.2
      · unfold keyvalStep
        rw [hf]
        simp only
        rw [htake, hkOK.1, hdrop, hv3, hPV, hnone]

theorem runLines_values : ∀ (vals : List (Str × Str)) (st : PSt) (REST : List Str),
    (∀ kv ∈ vals, KeyOK kv.1 ∧ ValOK kv.2) →
    (∀ kv ∈ vals, charAt kv.1 0 ≠ '#' ∧ charAt kv.1 0 ≠ ';' ∧ ';' ∉ kv.2 ∧
      TrimString kv.2 = kv.2) →
    ((st.cur.values.map Prod.fst ++ vals.map Prod.fst).Nodup) →
    runLines (vals.map (fun kv => kv.1 ++ '=' :: kv.2) ++ REST) st =
      runLines REST ⟨Sec.mk (st.cur.values ++ vals)
        (st.cur.orderedValues ++ vals.map Prod.fst)
        st.cur.sections st.cur.orderedSections st.cur.depth, st.stk⟩ := by
  intro vals
  induction vals with
  | nil =>
    intro st REST _ _ _
    rw [List.map_nil, List.nil_append, List.map_nil, List.append_nil, List.append_nil,
      Sec.eta]
  | cons kv rest ih =>
    intro st REST hkv hsafe hnd
    have hknotin : kv.1 ∉ st.cur.values.map Prod.fst := by
      rw [List.map_cons] at hnd
      exact nodup_middle hnd
    have hstep := lineStep_value kv.1 kv.2 st
      (hkv kv (List.mem_cons_self _ _)).1 (hkv kv (List.mem_cons_self _ _)).2
      (hsafe kv (List.mem_cons_self _ _)).1 (hsafe kv (List.mem_cons_self _ _)).2.1
      (hsafe kv (List.mem_cons_self _ _)).2.2.1 (hsafe kv (List.mem_cons_self _ _)).2.2.2
      ((alookup_eq_none_iff _ _).mpr hknotin)
    rw [List.map_cons, List.cons_append, runLines_cons_ok hstep]
    have := ih ⟨Sec.mk (st.cur.values ++ [kv]) (st.cur.orderedValues ++ [kv.1])
        st.cur.sections st.cur.orderedSections st.cur.depth, st.stk⟩ REST
      (fun x hx => hkv x (List.mem_cons_of_mem _ hx))
      (fun x hx => hsafe x (List.mem_cons_of_mem _ hx))
      (by
        show ((st.cur.values ++ [kv]).map Prod.fst ++ rest.map Prod.fst).Nodup
        rw [List.map_append, List.map_singleton, List.append_assoc, List.singleton_append]
        rw [List.map_cons] at hnd
        exact hnd)
    rw [this]
    show runLines REST ⟨Sec.mk ((st.cur.values ++ [kv]) ++ rest)
        ((st.cur.orderedValues ++ [kv.1]) ++ rest.map Prod.fst)
        st.cur.sections st.cur.orderedSections st.cur.depth, st.stk⟩ = _
    rw [List.append_assoc, List.append_assoc]
    rfl

theorem lineStep_header (m : Nat) (nm : Str) (st : PSt)
    (hnm : charAt nm 0 ≠ '[')
    (hle : m + 1 ≤ st.cur.depth + 1)
    (hnone : alookup nm (popN (st.cur.depth - m) st).cur.sections = none) :
    lineStep st (List.replicate (m + 1) '[' ++ (nm ++ List.replicate (m + 1) ']')) =
      .ok ⟨emptySec (m + 1),
        (nm, Sec.mk (popN (st.cur.depth - m) st).cur.values
          (popN (st.cur.depth - m) st).cur.orderedValues
          (popN (st.cur.depth - m) st).cur.sections
          ((popN (st.cur.depth - m) st).cur.orderedSections ++ [nm])
          (popN (st.cur.depth - m) st).cur.depth) ::
        (popN (st.cur.depth - m) st).stk⟩ := by
  have hH0 : charAt (List.replicate (m + 1) '[' ++ (nm ++ List.replicate (m + 1) ']')) 0 = '[' := by
    rw [List.replicate_succ, List.cons_append, charAt_cons]
  have htw : ((List.replicate (m + 1) '[' ++ (nm ++ List.replicate (m + 1) ']')).takeWhile
      (fun c => c = '[')).length = m + 1 := by
    rw [takeWhile_replicate_open]
    have hr : (nm ++ List.replicate (m + 1) ']').takeWhile (fun c => c = '[') = [] := by
      apply takeWhile_head_ne
      cases nm with
      | nil =>
        rw [List.nil_append, List.replicate_succ, charAt_cons]
        decide
      | cons c t =>
        rw [charAt_cons_append]
        exact hnm
    rw [hr, List.append_nil, List.length_replicate]
  have hlen : (List.replicate (m + 1) '[' ++ (nm ++ List.replicate (m + 1) ']')).length =
      (m + 1) + (nm.length + (m + 1)) := by
    rw [List.length_append, List.length_append, List.length_replicate, List.length_replicate]
  have hdropH : (List.replicate (m + 1) '[' ++ (nm ++ List.replicate (m + 1) ']')).drop (m + 1) =
      nm ++ List.replicate (m + 1) ']' := by
    have := List.drop_left (List.replicate (m + 1) '[') (nm ++ List.replicate (m + 1) ']')
    rw [List.length_replicate] at this
    exact this
  have hname : headerName (List.replicate (m + 1) '[' ++ (nm ++ List.replicate (m + 1) ']'))
      (m + 1) = nm := by
    unfold headerName
    rw [if_pos (by omega)]
    rw [hdropH]
    have hidx : (List.replicate (m + 1) '[' ++ (nm ++ List.replicate (m + 1) ']')).length -
        2 * (m + 1) = nm.length := by omega
    rw [hidx]
    exact List.take_left _ _
  have hTS : TrimString (List.replicate (m + 1) '[' ++ (nm ++ List.replicate (m + 1) ']')) =
      List.replicate (m + 1) '[' ++ (nm ++ List.replicate (m + 1) ']') := by
    apply trim_fixed_of_ends
    · apply dropWhile_of_head_false
      rw [hH0]
      decide
    · apply dropWhile_of_head_false
      have hrev : (List.replicate (m + 1) '[' ++ (nm ++ List.replicate (m + 1) ']')).reverse =
          List.replicate (m + 1) ']' ++ (nm.reverse ++ List.replicate (m + 1) '[') := by
        rw [List.reverse_append, List.reverse_append, List.reverse_replicate,
          List.reverse_replicate, List.append_assoc]
      rw [hrev, List.replicate_succ, List.cons_append, charAt_cons]
      decide
  have hne : List.replicate (m + 1) '[' ++ (nm ++ List.replicate (m + 1) ']') ≠ [] := by
    rw [List.replicate_succ, List.cons_append]
    simp
  unfold lineStep
  have hc1 : ¬((decide (charAt (List.replicate (m + 1) '[' ++
      (nm ++ List.replicate (m + 1) ']')) 0 = '#') ||
      decide (charAt (List.replicate (m + 1) '[' ++
      (nm ++ List.replicate (m + 1) ']')) 0 = ';')) = true) := by
    rw [hH0]
    decide
  rw [if_neg hc1, hTS]
  have hc2 : ¬((List.replicate (m + 1) '[' ++ (nm ++ List.replicate (m + 1) ']')).isEmpty
      = true) := by
    rw [List.isEmpty_iff]
    exact hne
  rw [if_neg hc2, if_pos hH0]
  simp only [headerStep]
  rw [htw, hname]
  rw [if_neg (by omega)]
  by_cases heq : st.cur.depth + 1 = m + 1
  · rw [if_pos heq]
    have h0 : st.cur.depth - m = 0 := by omega
    rw [h0] at hnone ⊢
    simp only [popN] at hnone ⊢
    simp only [hnone]
  · rw [if_neg heq]
    have harith : st.cur.depth - (m + 1) + 1 = st.cur.depth - m := by omega
    rw [harith]
    simp only [hnone]

theorem map_fst_lookup_vals (vals : List (Str × Str)) (hnd : (vals.map Prod.fst).Nodup) :
    (vals.map Prod.fst).map (fun k => k ++ '=' :: ((alookup k vals).getD [])) =
      vals.map (fun kv => kv.1 ++ '=' :: kv.2) :=
  map_fst_lookup (fun k v => k ++ '=' :: v) [] vals hnd

theorem map_fst_lookup_vals_nl (vals : List (Str × Str)) (hnd : (vals.map Prod.fst).Nodup) :
    (vals.map Prod.fst).map (fun k => k ++ '=' :: ((alookup k vals).getD []) ++ ['\n']) =
      vals.map (fun kv => kv.1 ++ '=' :: kv.2 ++ ['\n']) :=
  map_fst_lookup (fun k v => k ++ '=' :: v ++ ['\n']) [] vals hnd

theorem map_fst_lookup_linesF (fuel : Nat) (secs : List (Str × Sec))
    (hnd : (secs.map Prod.fst).Nodup) :
    (secs.map Prod.fst).map (fun nm => exportLinesF fuel ((alookup nm secs).getD (emptySec 0)) nm) =
      secs.map (fun nc => exportLinesF fuel nc.2 nc.1) :=
  map_fst_lookup (fun nm c => exportLinesF fuel c nm) (emptySec 0) secs hnd

theorem map_fst_lookup_secF (fuel : Nat) (secs : List (Str × Sec))
    (hnd : (secs.map Prod.fst).Nodup) :
    (secs.map Prod.fst).map (fun nm => exportSecF fuel ((alookup nm secs).getD (emptySec 0)) nm) =
      secs.map (fun nc => exportSecF fuel nc.2 nc.1) :=
  map_fst_lookup (fun nm c => exportSecF fuel c nm) (emptySec 0) secs hnd

theorem exportLinesF_eq {fuel : Nat} {n : Nat} {S : Sec} (hwf : SecWF n S) (nm : Str) :
    exportLinesF (fuel + 1) S nm =
      (if nm.isEmpty then []
       else [[], List.replicate S.depth '[' ++ nm ++ List.replicate S.depth ']']) ++
      S.values.map (fun kv => kv.1 ++ '=' :: kv.2) ++
      (S.sections.map (fun nc => exportLinesF fuel nc.2 nc.1)).flatten := by
  obtain ⟨_, h2, h3, h4, h5, _⟩ := secWF_fields hwf
  rw [exportLinesF, h2, h4, map_fst_lookup_vals S.values h3,
    map_fst_lookup_linesF fuel S.sections h5, List.append_assoc]

theorem exportSecF_eq {fuel : Nat} {n : Nat} {S : Sec} (hwf : SecWF n S) (nm : Str) :
    exportSecF (fuel + 1) S nm =
      ((if nm.isEmpty then [] else ['\n']) ++
       List.replicate S.depth '[' ++ nm ++ List.replicate S.depth ']' ++
       (if nm.isEmpty then [] else ['\n'])) ++
      (S.values.map (fun kv => kv.1 ++ '=' :: kv.2 ++ ['\n'])).flatten ++
      (S.sections.map (fun nc => exportSecF fuel nc.2 nc.1)).flatten := by
  obtain ⟨_, h2, h3, h4, h5, _⟩ := secWF_fields hwf
  rw [exportSecF, h2, h4, map_fst_lookup_vals_nl S.values h3,
    map_fst_lookup_secF fuel S.sections h5]

theorem exportLinesF_no_newline : ∀ (fuel : Nat) {n : Nat} {S : Sec} (nm : Str),
    SecWF n S → '\n' ∉ nm → ∀ l ∈ exportLinesF fuel S nm, '\n' ∉ l := by
  intro fuel
  induction fuel with
  | zero =>
    intro n S nm _ _ l hl
    cases hl
  | succ f ih =>
    intro n S nm hwf hnm l hl
    rw [exportLinesF_eq hwf nm] at hl
    obtain ⟨_, _, _, _, _, hkv, hnames, hkids⟩ := secWF_fields hwf
    rcases List.mem_append.mp hl with h | hkidmem
    · rcases List.mem_append.mp h with hhd | hvals
      · by_cases he : nm.isEmpty
        · rw [if_pos he] at hhd
          cases hhd
        · rw [if_neg he] at hhd
          rcases List.mem_cons.mp hhd with h1 | h1
          · rw [h1]
            simp
          · rw [List.mem_singleton] at h1
            rw [h1]
            intro hmem
            rcases List.mem_append.mp hmem with h2 | h2
            · rcases List.mem_append.mp h2 with h3 | h3
              · exact absurd (List.eq_of_mem_replicate h3) (by decide)
              · exact hnm h3
            · exact absurd (List.eq_of_mem_replicate h2) (by decide)
      · obtain ⟨kv, hkvm, hline⟩ := List.mem_map.mp hvals
        rw [← hline]
        intro hmem
        rcases List.mem_append.mp hmem with h2 | h2
        · exact (hkv kv hkvm).1.2.2.1 h2
        · rcases List.mem_cons.mp h2 with h3 | h3
          · exact absurd h3 (by decide)
          · exact (hkv kv hkvm).2.2.1 h3
    · obtain ⟨ls, hls, hl2⟩ := List.mem_flatten.mp hkidmem
      obtain ⟨nc, hnc, hmap⟩ := List.mem_map.mp hls
      rw [← hmap] at hl2
      exact ih nc.1 (hkids nc hnc) ((hnames nc hnc).1) l hl2

theorem exportLines_unlines : ∀ (fuel : Nat) {n : Nat} {S : Sec} (nm : Str),
    SecWF n S → rtSafe fuel S = true → (nm = [] → S.depth = 0) →
    unlines (exportLinesF fuel S nm) = exportSecF fuel S nm := by
  intro fuel
  induction fuel with
  | zero =>
    intro n S nm _ hs _
    rw [rtSafe] at hs
    cases hs
  | succ f ih =>
    intro n S nm hwf hs hdep
    have hsafe := rtSafe_succ hs
    obtain ⟨_, _, _, _, _, _, hnames, hkids⟩ := secWF_fields hwf
    rw [exportLinesF_eq hwf nm, exportSecF_eq hwf nm, unlines_append, unlines_append]
    have hA : unlines (if nm.isEmpty then []
        else [[], List.replicate S.depth '[' ++ nm ++ List.replicate S.depth ']']) =
        (if nm.isEmpty then [] else ['\n']) ++
        List.replicate S.depth '[' ++ nm ++ List.replicate S.depth ']' ++
        (if nm.isEmpty then [] else ['\n']) := by
      by_cases he : nm.isEmpty
      · rw [if_pos he, if_pos he]
        rw [List.isEmpty_iff] at he
        rw [hdep he, he]
        rfl
      · rw [if_neg he, if_neg he]
        unfold unlines
        simp [List.append_assoc]
    have hB : unlines (S.values.map (fun kv => kv.1 ++ '=' :: kv.2)) =
        (S.values.map (fun kv => kv.1 ++ '=' :: kv.2 ++ ['\n'])).flatten := by
      unfold unlines
      rw [List.map_map]
      apply congrArg
      apply List.map_congr_left
      intro kv _
      show (kv.1 ++ '=' :: kv.2) ++ ['\n'] = kv.1 ++ '=' :: kv.2 ++ ['\n']
      rw [List.append_assoc]
    have hC : unlines ((S.sections.map (fun nc => exportLinesF f nc.2 nc.1)).flatten) =
        (S.sections.map (fun nc => exportSecF f nc.2 nc.1)).flatten := by
      rw [unlines_flatten, List.map_map]
      apply congrArg
      apply List.map_congr_left
      intro nc hnc
      show unlines (exportLinesF f nc.2 nc.1) = exportSecF f nc.2 nc.1
      exact ih nc.1 (hkids nc hnc) (hsafe.2 nc hnc).2
        (fun h => absurd h (hsafe.2 nc hnc).1)
    rw [hA, hB, hC]

theorem roundtrip_kids (fuel : Nat) (hIH : RoundStmt fuel) (dS : Nat) :
    ∀ (cs : List (Str × Sec)) (stD : PSt) (REST : List Str),
    (∀ nc ∈ cs, rtSafe fuel nc.2 = true ∧ SecWF (dS + 1) nc.2 ∧ NameOK nc.1 ∧ nc.1 ≠ []) →
    StWF stD → dS ≤ stD.cur.depth →
    ((popN (stD.cur.depth - dS) stD).cur.sections.map Prod.fst ++ cs.map Prod.fst).Nodup →
    (popN (stD.cur.depth - dS) stD).cur.depth = dS →
    ∃ stFin, runLines ((cs.map (fun nc => exportLinesF fuel nc.2 nc.1)).flatten ++ REST) stD =
        runLines REST stFin ∧ StWF stFin ∧ dS ≤ stFin.cur.depth ∧
        popN (stFin.cur.depth - dS) stFin =
          ⟨Sec.mk (popN (stD.cur.depth - dS) stD).cur.values
            (popN (stD.cur.depth - dS) stD).cur.orderedValues
            ((popN (stD.cur.depth - dS) stD).cur.sections ++ cs)
            ((popN (stD.cur.depth - dS) stD).cur.orderedSections ++ cs.map Prod.fst)
            (popN (stD.cur.depth - dS) stD).cur.depth,
           (popN (stD.cur.depth - dS) stD).stk⟩ := by
  intro cs
  induction cs with
  | nil =>
    intro stD REST _ hwf hle _ _
    refine ⟨stD, ?_, hwf, hle, ?_⟩
    · rw [List.map_nil, List.flatten_nil, List.nil_append]
    · rw [List.map_nil, List.append_nil, List.append_nil, Sec.eta]
  | cons c rest ih =>
    intro stD REST hcs hwf hle hnd hPd
    obtain ⟨nm1, c1⟩ := c
    obtain ⟨hs1p, hw1p, hn1p, hne1p⟩ := hcs (nm1, c1) (List.mem_cons_self _ _)
    have hs1 : rtSafe fuel c1 = true := hs1p
    have hw1 : SecWF (dS + 1) c1 := hw1p
    have hn1 : NameOK nm1 := hn1p
    have hne1 : nm1 ≠ [] := hne1p
    have hcd : c1.depth = dS + 1 := (secWF_fields hw1).1
    have hidx : stD.cur.depth - (c1.depth - 1) = stD.cur.depth - dS := by omega
    rw [List.map_cons] at hnd
    have hnotin : nm1 ∉ (popN (stD.cur.depth - dS) stD).cur.sections.map Prod.fst :=
      nodup_middle hnd
    have happly := hIH c1 nm1 stD
      ((rest.map (fun nc => exportLinesF fuel nc.2 nc.1)).flatten ++ REST)
      hs1 (by rw [hcd]; exact hw1) (by omega) (by omega) hwf hn1 hne1
      (by rw [hidx]; exact (alookup_eq_none_iff _ _).mpr hnotin)
    obtain ⟨stF1, hrun1, hwf1, hle1, hpop1⟩ := happly
    rw [hidx] at hpop1
    rw [hcd] at hle1
    have hidx2 : stF1.cur.depth - (c1.depth - 1) = stF1.cur.depth - dS := by omega
    rw [hidx2] at hpop1
    -- the state popped to the parent level after the first child
    have hP1sec : (popN (stF1.cur.depth - dS) stF1).cur.sections =
        (popN (stD.cur.depth - dS) stD).cur.sections ++ [(nm1, c1)] := by
      rw [hpop1]
      rfl
    have hP1vals : (popN (stF1.cur.depth - dS) stF1).cur.values =
        (popN (stD.cur.depth - dS) stD).cur.values := by
      rw [hpop1]
      rfl
    have hP1ov : (popN (stF1.cur.depth - dS) stF1).cur.orderedValues =
        (popN (stD.cur.depth - dS) stD).cur.orderedValues := by
      rw [hpop1]
      rfl
    have hP1os : (popN (stF1.cur.depth - dS) stF1).cur.orderedSections =
        (popN (stD.cur.depth - dS) stD).cur.orderedSections ++ [nm1] := by
      rw [hpop1]
      rfl
    have hP1d : (popN (stF1.cur.depth - dS) stF1).cur.depth = dS := by
      rw [hpop1]
      exact hPd
    have hP1stk : (popN (stF1.cur.depth - dS) stF1).stk =
        (popN (stD.cur.depth - dS) stD).stk := by
      rw [hpop1]
    have hrest := ih stF1 REST
      (fun nc hnc => hcs nc (List.mem_cons_of_mem _ hnc))
      hwf1 (by omega)
      (by
        rw [hP1sec, List.map_append, List.map_singleton, List.append_assoc,
          List.singleton_append]
        exact hnd)
      hP1d
    obtain ⟨stFin, hrunR, hwfF, hleF, hpopF⟩ := hrest
    refine ⟨stFin, ?_, hwfF, hleF, ?_⟩
    · rw [List.map_cons, List.flatten_cons, List.append_assoc, hrun1, hrunR]
    · rw [hpopF, hP1vals, hP1ov, hP1sec, hP1os, hP1d, hP1stk, hPd,
        List.append_assoc, List.singleton_append, List.append_assoc,
        List.singleton_append, List.map_cons]

theorem roundtrip_sec : ∀ fuel : Nat, RoundStmt fuel := by
  intro fuel
  induction fuel with
  | zero =>
    intro S nm st REST hs
    rw [rtSafe] at hs
    intro _ _ _ _ _ _ _
    exact absurd hs Bool.false_ne_true
  | succ f ih =>
    intro S nm st REST hs hwfS hd1 hdle hwf hnmok hnmne hnone
    obtain ⟨m, hm⟩ : ∃ m, S.depth = m + 1 := ⟨S.depth - 1, by omega⟩
    have hsd : S.depth - 1 = m := by omega
    rw [hsd] at hnone ⊢
    have hsafe := rtSafe_succ hs
    obtain ⟨hfd, hov, hvnd, hos, hsnd, hkv, hnames, hkids⟩ := secWF_fields hwfS
    have hkids' := hkids
    rw [hm] at hkids'
    have hkle : st.cur.depth - m ≤ st.cur.depth := by omega
    obtain ⟨hwfP, hPdraw⟩ := popN_wf hwf hkle
    have hPd : (popN (st.cur.depth - m) st).cur.depth = m := by omega
    have hstep := lineStep_header m nm st hnmok.2 (by omega) hnone
    have hlines : exportLinesF (f + 1) S nm =
        [] :: (List.replicate (m + 1) '[' ++ (nm ++ List.replicate (m + 1) ']')) ::
        (S.values.map (fun kv => kv.1 ++ '=' :: kv.2) ++
         (S.sections.map (fun nc => exportLinesF f nc.2 nc.1)).flatten) := by
      rw [exportLinesF_eq hwfS nm, if_neg (fun h => hnmne (List.isEmpty_iff.mp h)), hm]
      simp [List.append_assoc]
    have hSecP : SecWF m (popN (st.cur.depth - m) st).cur := by
      have := hwfP.1
      rw [hPd] at this
      exact this
    have hStkP : StackWF (popN (st.cur.depth - m) st).stk m := by
      have := hwfP.2
      rw [hPd] at this
      exact this
    have hnotin : nm ∉ (popN (st.cur.depth - m) st).cur.sections.map Prod.fst :=
      (alookup_eq_none_iff _ _).mp hnone
    -- the state with the fresh section open, values already inserted
    have hwfV : StWF ⟨Sec.mk S.values (S.values.map Prod.fst) [] [] (m + 1),
        (nm, Sec.mk (popN (st.cur.depth - m) st).cur.values
          (popN (st.cur.depth - m) st).cur.orderedValues
          (popN (st.cur.depth - m) st).cur.sections
          ((popN (st.cur.depth - m) st).cur.orderedSections ++ [nm])
          (popN (st.cur.depth - m) st).cur.depth) ::
        (popN (st.cur.depth - m) st).stk⟩ := by
      constructor
      · show SecWF (m + 1) (Sec.mk S.values (S.values.map Prod.fst) [] [] (m + 1))
        apply secWF_intro
        · rfl
        · rfl
        · exact hvnd
        · rfl
        · exact List.nodup_nil
        · exact hkv
        · intro nc hnc
          exact absurd hnc (List.not_mem_nil _)
        · intro nc hnc
          exact absurd hnc (List.not_mem_nil _)
      · show StackWF ((nm, _) :: (popN (st.cur.depth - m) st).stk) (m + 1)
        exact StackWF.cons nm _ _ m (psecWF_open hSecP hnotin hnmok) hStkP
    have hrunV := runLines_values S.values
      ⟨emptySec (m + 1),
        (nm, Sec.mk (popN (st.cur.depth - m) st).cur.values
          (popN (st.cur.depth - m) st).cur.orderedValues
          (popN (st.cur.depth - m) st).cur.sections
          ((popN (st.cur.depth - m) st).cur.orderedSections ++ [nm])
          (popN (st.cur.depth - m) st).cur.depth) ::
        (popN (st.cur.depth - m) st).stk⟩
      ((S.sections.map (fun nc => exportLinesF f nc.2 nc.1)).flatten ++ REST)
      hkv hsafe.1 hvnd
    -- normalize the state produced by the value lines
    have hTV : (⟨Sec.mk ((emptySec (m + 1)).values ++ S.values)
        ((emptySec (m + 1)).orderedValues ++ S.values.map Prod.fst)
        (emptySec (m + 1)).sections (emptySec (m + 1)).orderedSections
        (emptySec (m + 1)).depth,
        (nm, Sec.mk (popN (st.cur.depth - m) st).cur.values
          (popN (st.cur.depth - m) st).cur.orderedValues
          (popN (st.cur.depth - m) st).cur.sections
          ((popN (st.cur.depth - m) st).cur.orderedSections ++ [nm])
          (popN (st.cur.depth - m) st).cur.depth) ::
        (popN (st.cur.depth - m) st).stk⟩ : PSt) =
        ⟨Sec.mk S.values (S.values.map Prod.fst) [] [] (m + 1),
        (nm, Sec.mk (popN (st.cur.depth - m) st).cur.values
          (popN (st.cur.depth - m) st).cur.orderedValues
          (popN (st.cur.depth - m) st).cur.sections
          ((popN (st.cur.depth - m) st).cur.orderedSections ++ [nm])
          (popN (st.cur.depth - m) st).cur.depth) ::
        (popN (st.cur.depth - m) st).stk⟩ := rfl
    have hzero : (m + 1) - (m + 1) = 0 := by omega
    have hkc := roundtrip_kids f ih (m + 1) S.sections
      ⟨Sec.mk S.values (S.values.map Prod.fst) [] [] (m + 1),
        (nm, Sec.mk (popN (st.cur.depth - m) st).cur.values
          (popN (st.cur.depth - m) st).cur.orderedValues
          (popN (st.cur.depth - m) st).cur.sections
          ((popN (st.cur.depth - m) st).cur.orderedSections ++ [nm])
          (popN (st.cur.depth - m) st).cur.depth) ::
        (popN (st.cur.depth - m) st).stk⟩
      REST
      (fun nc hnc => ⟨(hsafe.2 nc hnc).2, hkids' nc hnc, hnames nc hnc, (hsafe.2 nc hnc).1⟩)
      hwfV (by show m + 1 ≤ m + 1; omega)
      (by
        show (((popN ((m + 1) - (m + 1)) _).cur.sections.map Prod.fst ++
          S.sections.map Prod.fst)).Nodup
        rw [hzero]
        exact hsnd)
      (by
        show (popN ((m + 1) - (m + 1)) _).cur.depth = m + 1
        rw [hzero]
        rfl)
    obtain ⟨stFin, hrunR, hwfF, hleF, hpopF⟩ := hkc
    -- normalize the closed state of the children loop
    have hidx : (⟨Sec.mk S.values (S.values.map Prod.fst) [] [] (m + 1),
        (nm, Sec.mk (popN (st.cur.depth - m) st).cur.values
          (popN (st.cur.depth - m) st).cur.orderedValues
          (popN (st.cur.depth - m) st).cur.sections
          ((popN (st.cur.depth - m) st).cur.orderedSections ++ [nm])
          (popN (st.cur.depth - m) st).cur.depth) ::
        (popN (st.cur.depth - m) st).stk⟩ : PSt).cur.depth - (m + 1) = 0 := hzero
    rw [hidx] at hpopF
    refine ⟨stFin, ?_, hwfF, by omega, ?_⟩
    · rw [hlines, List.cons_append, List.cons_append, List.append_assoc,
        runLines_cons_ok (lineStep_blank st), runLines_cons_ok hstep, hrunV, hTV, hrunR]
    · have harith : stFin.cur.depth - m = (stFin.cur.depth - (m + 1)) + 1 := by omega
      rw [harith, popN_add, hpopF]
      show popN 1 (⟨Sec.mk S.values (S.values.map Prod.fst) ([] ++ S.sections)
        ([] ++ S.sections.map Prod.fst) (m + 1),
        (nm, Sec.mk (popN (st.cur.depth - m) st).cur.values
          (popN (st.cur.depth - m) st).cur.orderedValues
          (popN (st.cur.depth - m) st).cur.sections
          ((popN (st.cur.depth - m) st).cur.orderedSections ++ [nm])
          (popN (st.cur.depth - m) st).cur.depth) ::
        (popN (st.cur.depth - m) st).stk⟩ : PSt) = _
      rw [List.nil_append, List.nil_append, ← hov, ← hos, ← hm, Sec.eta]
      rfl

/-! Claim theorems. -/

/-- C1 counterexample. The claim states that exporting any successfully
    parsed configuration and re-parsing the exported text always yields the
    original tree. Parsing "b=1 # note" stores the value "1 " (trailing
    space kept, because trimming precedes comment stripping); the export
    prints "b=1 \n", and re-parsing that trims the value to "1", a different
    tree. -/
theorem C1_counterexample :
    parseConfig ("b=1 # note".toList) =
      Except.ok (Sec.mk [("b".toList, "1 ".toList)] ["b".toList] [] [] 0) ∧
    exportConfig (Sec.mk [("b".toList, "1 ".toList)] ["b".toList] [] [] 0) =
      "b=1 \n".toList ∧
    parseConfig ("b=1 \n".toList) =
      Except.ok (Sec.mk [("b".toList, "1".toList)] ["b".toList] [] [] 0) ∧
    (("1 ".toList : Str) == "1".toList) = false := by
  exact ⟨rfl, rfl, rfl, rfl⟩

/-- C1 amended. Exporting a successfully parsed configuration and re-parsing
    the exported text reproduces the tree exactly, provided the tree is
    round-trip safe: every stored value is unchanged by trimming and free of
    ';', no key starts with '#' or ';', and every section name is nonempty
    (conditions any tree parsed from comment-free, trimmed input meets). -/
theorem C1_roundtrip (text : Str) (T : Sec)
    (h : parseConfig text = Except.ok T)
    (hsafe : rtSafe (secSize T) T = true) :
    parseConfig (exportConfig T) = Except.ok T := by
  have hwfT : SecWF 0 T := parse_wf h
  obtain ⟨hTd, hov, hvnd, hos, hsnd, hkv, hnames, hkids⟩ := secWF_fields hwfT
  obtain ⟨f, hf⟩ : ∃ f, secSize T = f + 1 := ⟨secSize T - 1, by have := secSize_pos T; omega⟩
  rw [hf] at hsafe
  have hsp := rtSafe_succ hsafe
  have hnl : ∀ l ∈ exportLinesF (f + 1) T [], '\n' ∉ l :=
    exportLinesF_no_newline (f + 1) [] hwfT (List.not_mem_nil _)
  have hexp : exportConfig T = unlines (exportLinesF (f + 1) T []) := by
    unfold exportConfig
    rw [hf, exportLines_unlines (f + 1) [] hwfT hsafe (fun _ => hTd)]
  have hgl : getLines (exportConfig T) = exportLinesF (f + 1) T [] := by
    rw [hexp, getLines_unlines _ hnl]
  have hlines : exportLinesF (f + 1) T [] =
      T.values.map (fun kv => kv.1 ++ '=' :: kv.2) ++
      (T.sections.map (fun nc => exportLinesF f nc.2 nc.1)).flatten := by
    rw [exportLinesF_eq hwfT []]
    rfl
  have hrunV := runLines_values T.values ⟨emptySec 0, []⟩
    ((T.sections.map (fun nc => exportLinesF f nc.2 nc.1)).flatten ++ [])
    hkv hsp.1 hvnd
  have hTV : (⟨Sec.mk ((⟨emptySec 0, []⟩ : PSt).cur.values ++ T.values)
      ((⟨emptySec 0, []⟩ : PSt).cur.orderedValues ++ T.values.map Prod.fst)
      (⟨emptySec 0, []⟩ : PSt).cur.sections (⟨emptySec 0, []⟩ : PSt).cur.orderedSections
      (⟨emptySec 0, []⟩ : PSt).cur.depth, (⟨emptySec 0, []⟩ : PSt).stk⟩ : PSt) =
      ⟨Sec.mk T.values (T.values.map Prod.fst) [] [] 0, []⟩ := rfl
  have hwfV : StWF (⟨Sec.mk T.values (T.values.map Prod.fst) [] [] 0, []⟩ : PSt) := by
    constructor
    · show SecWF 0 (Sec.mk T.values (T.values.map Prod.fst) [] [] 0)
      apply secWF_intro
      · rfl
      · rfl
      · exact hvnd
      · rfl
      · exact List.nodup_nil
      · exact hkv
      · intro nc hnc
        exact absurd hnc (List.not_mem_nil _)
      · intro nc hnc
        exact absurd hnc (List.not_mem_nil _)
    · exact StackWF.nil
  have hkc := roundtrip_kids f (roundtrip_sec f) 0 T.sections
    ⟨Sec.mk T.values (T.values.map Prod.fst) [] [] 0, []⟩ []
    (fun nc hnc => ⟨(hsp.2 nc hnc).2, hkids nc hnc, hnames nc hnc, (hsp.2 nc hnc).1⟩)
    hwfV Nat.le.refl hsnd rfl
  obtain ⟨stFin, hrunK, hwfF, _, hpopF⟩ := hkc
  rw [Nat.sub_zero] at hpopF
  have hstk : stFin.stk.length = stFin.cur.depth := stackWF_length hwfF.2
  have hclose : closeAll stFin = T := by
    unfold closeAll
    rw [hstk, hpopF]
    show Sec.mk T.values (T.values.map Prod.fst) ([] ++ T.sections)
      ([] ++ T.sections.map Prod.fst) 0 = T
    rw [List.nil_append, List.nil_append, ← hov, ← hos, ← hTd, Sec.eta]
  unfold parseConfig
  rw [hgl, hlines,
    ← List.append_nil ((T.sections.map (fun nc => exportLinesF f nc.2 nc.1)).flatten),
    hrunV, hTV, hrunK]
  show (Except.ok (closeAll stFin) : Except PErr Sec) = Except.ok T
  rw [hclose]

/-- witness for C1_roundtrip at the concrete input "a=1\n[e]\nea=2\n". -/
theorem C1_roundtrip_witness :
    parseConfig ("a=1\n[e]\nea=2\n".toList) =
      Except.ok (Sec.mk [("a".toList, "1".toList)] ["a".toList]
        [("e".toList, Sec.mk [("ea".toList, "2".toList)] ["ea".toList] [] [] 1)]
        ["e".toList] 0) ∧
    rtSafe (secSize (Sec.mk [("a".toList, "1".toList)] ["a".toList]
        [("e".toList, Sec.mk [("ea".toList, "2".toList)] ["ea".toList] [] [] 1)]
        ["e".toList] 0))
      (Sec.mk [("a".toList, "1".toList)] ["a".toList]
        [("e".toList, Sec.mk [("ea".toList, "2".toList)] ["ea".toList] [] [] 1)]
        ["e".toList] 0) = true ∧
    parseConfig (exportConfig (Sec.mk [("a".toList, "1".toList)] ["a".toList]
        [("e".toList, Sec.mk [("ea".toList, "2".toList)] ["ea".toList] [] [] 1)]
        ["e".toList] 0)) =
      Except.ok (Sec.mk [("a".toList, "1".toList)] ["a".toList]
        [("e".toList, Sec.mk [("ea".toList, "2".toList)] ["ea".toList] [] [] 1)]
        ["e".toList] 0) :=
  ⟨rfl, rfl, C1_roundtrip ("a=1\n[e]\nea=2\n".toList)
    (Sec.mk [("a".toList, "1".toList)] ["a".toList]
      [("e".toList, Sec.mk [("ea".toList, "2".toList)] ["ea".toList] [] [] 1)]
      ["e".toList] 0) rfl rfl⟩

/-- C2 counterexample. The claim states that parsing the line "b=1 # note"
    stores value exactly "1", the whitespace before the comment removed. The
    code trims the value before stripping the comment, so the stored value is
    "1 " with the trailing space kept; its lookup is not "1". -/
theorem C2_counterexample :
    (parseConfig ("b=1 # note".toList)).map (fun T => alookup ("b".toList) T.values) =
      Except.ok (some ("1 ".toList)) ∧
    (("1 ".toList : Str) == "1".toList) = false := by
  exact ⟨rfl, rfl⟩

/-- C2 amended. Parsing the key/value line "b=1 # note" stores key "b" with
    value "1 ": the comment introducer and everything after it are removed,
    but the whitespace between the value and the comment remains in the
    stored value, because trimming is applied before comment stripping. -/
theorem C2_value_keeps_space_before_comment :
    parseConfig ("b=1 # note".toList) =
      Except.ok (Sec.mk [("b".toList, "1 ".toList)] ["b".toList] [] [] 0) := by
  rfl

/-- C3 counterexample. The claim states that comment stripping cuts at the
    earliest of '#' and ';', so "a;b#c" should be cut at the ';' giving "a".
    The code searches for '#' first and only considers ';' when no '#'
    occurs, so "a;b#c" is cut at the '#', giving "a;b". -/
theorem C3_counterexample :
    ParseValue ("a;b#c".toList) = ("a;b".toList) ∧
    (("a;b".toList : Str) == "a".toList) = false := by
  exact ⟨rfl, rfl⟩

/-- C3 amended. Comment stripping returns the prefix before the first '#'
    whenever the string contains a '#' (wherever any ';' sits); otherwise the
    prefix before the first ';' when the string contains one; otherwise the
    input unchanged. -/
theorem C3_hash_priority (s : Str) :
    ('#' ∈ s → ∃ pre suf, s = pre ++ '#' :: suf ∧ '#' ∉ pre ∧ ParseValue s = pre) ∧
    ('#' ∉ s → ';' ∈ s → ∃ pre suf, s = pre ++ ';' :: suf ∧ ';' ∉ pre ∧ ParseValue s = pre) ∧
    ('#' ∉ s → ';' ∉ s → ParseValue s = s) := by
  refine ⟨?_, ?_, ?_⟩
  · intro hs
    rcases hfind : findChar '#' s with _ | i
    · exact absurd ((findChar_eq_none _ _).mp hfind) (by simpa using hs)
    · obtain ⟨pre, suf, hdec, hpre, hlen⟩ := findChar_eq_some _ _ _ hfind
      refine ⟨pre, suf, hdec, hpre, ?_⟩
      have hPV : ParseValue s = s.take i := by
        unfold ParseValue
        simp only [hfind]
      rw [hPV, hdec, ← hlen, List.take_left]
  · intro h1 hs
    rcases hfind : findChar ';' s with _ | i
    · exact absurd ((findChar_eq_none _ _).mp hfind) (by simpa using hs)
    · obtain ⟨pre, suf, hdec, hpre, hlen⟩ := findChar_eq_some _ _ _ hfind
      refine ⟨pre, suf, hdec, hpre, ?_⟩
      have hPV : ParseValue s = s.take i := by
        unfold ParseValue
        simp only [(findChar_eq_none '#' s).mpr h1, hfind]
      rw [hPV, hdec, ← hlen, List.take_left]
  · intro h1 h2
    unfold ParseValue
    simp only [(findChar_eq_none '#' s).mpr h1, (findChar_eq_none ';' s).mpr h2]

/-- witness for C3_hash_priority at the concrete input "a;b#c". -/
theorem C3_hash_priority_witness :
    ∃ pre suf, ("a;b#c".toList : Str) = pre ++ '#' :: suf ∧ '#' ∉ pre ∧
      ParseValue ("a;b#c".toList) = pre :=
  (C3_hash_priority ("a;b#c".toList)).1 (by decide)

/-- C4, recording the code bug. The claim (and the spec) state that casting
    to an array fails with a malformed-array error when the value is empty,
    does not begin with an open brace, or does not end with a close brace.
    The source's check is the assert of a disjunction whose first disjunct is
    "the string is nonempty" and whose third reads the character at index
    size (always NUL): it accepts every nonempty string. So "3,4,5" — no
    braces at all — is accepted and silently cast to [4, 5] (the first
    character is unconditionally dropped by substr(1, size-1)), and a missing
    close brace is likewise accepted; only the empty string fails. -/
theorem C4_array_check_unsound :
    cleanArrayCheck ("3,4,5".toList) = true ∧
    GetAsVecInt ("3,4,5".toList) = some [4, 5] ∧
    GetAsVecInt ("\x7b3,4".toList) = some [3, 4] ∧
    CleanArrayString [] = none := by
  exact ⟨rfl, rfl, rfl, rfl⟩

/-- C5. Looking up an absent key through Section::operator[] does not fail:
    it returns the empty string, default-inserts an empty-valued placeholder
    for the key into mValues, and appends nothing to mOrderedValues (the
    other fields are untouched as well). -/
theorem C5_absent_key_lookup (S : Sec) (k : Str) (h : alookup k S.values = none) :
    (S.getValueDefault k).1 = [] ∧
    alookup k (S.getValueDefault k).2.values = some [] ∧
    (S.getValueDefault k).2.values = S.values ++ [(k, [])] ∧
    (S.getValueDefault k).2.orderedValues = S.orderedValues ∧
    (S.getValueDefault k).2.sections = S.sections ∧
    (S.getValueDefault k).2.orderedSections = S.orderedSections ∧
    (S.getValueDefault k).2.depth = S.depth := by
  have hred : S.getValueDefault k =
      ([], Sec.mk (S.values ++ [(k, [])]) S.orderedValues S.sections S.orderedSections S.depth) := by
    unfold Sec.getValueDefault
    rw [h]
  rw [hred]
  exact ⟨rfl, alookup_append_self _ _ _ h, rfl, rfl, rfl, rfl, rfl⟩

/-- witness for C5_absent_key_lookup: a section holding only key "a", looked
    up at the absent key "b". -/
theorem C5_absent_key_lookup_witness :
    ((Sec.mk [("a".toList, "1".toList)] ["a".toList] [] [] 0).getValueDefault
        ("b".toList)).1 = [] ∧
    alookup ("b".toList) ((Sec.mk [("a".toList, "1".toList)] ["a".toList] [] [] 0).getValueDefault
        ("b".toList)).2.values = some [] ∧
    ((Sec.mk [("a".toList, "1".toList)] ["a".toList] [] [] 0).getValueDefault
        ("b".toList)).2.values =
      (Sec.mk [("a".toList, "1".toList)] ["a".toList] [] [] 0).values ++ [("b".toList, [])] ∧
    ((Sec.mk [("a".toList, "1".toList)] ["a".toList] [] [] 0).getValueDefault
        ("b".toList)).2.orderedValues =
      (Sec.mk [("a".toList, "1".toList)] ["a".toList] [] [] 0).orderedValues ∧
    ((Sec.mk [("a".toList, "1".toList)] ["a".toList] [] [] 0).getValueDefault
        ("b".toList)).2.sections =
      (Sec.mk [("a".toList, "1".toList)] ["a".toList] [] [] 0).sections ∧
    ((Sec.mk [("a".toList, "1".toList)] ["a".toList] [] [] 0).getValueDefault
        ("b".toList)).2.orderedSections =
      (Sec.mk [("a".toList, "1".toList)] ["a".toList] [] [] 0).orderedSections ∧
    ((Sec.mk [("a".toList, "1".toList)] ["a".toList] [] [] 0).getValueDefault
        ("b".toList)).2.depth =
      (Sec.mk [("a".toList, "1".toList)] ["a".toList] [] [] 0).depth :=
  C5_absent_key_lookup (Sec.mk [("a".toList, "1".toList)] ["a".toList] [] [] 0)
    ("b".toList) (by decide)

/-- C6. Casting the value "(open brace)3, 4, 5(close brace)" to an integer
    array yields exactly [3, 4, 5], in order. (Mechanically the close brace
    is not removed by CleanArrayString but swallowed by stoi on the last
    token; the observable result is as claimed.) -/
theorem C6_int_array_cast : GetAsVecInt ("\x7b3, 4, 5\x7d".toList) = some [3, 4, 5] := by
  rfl

/-- C7. The boolean cast yields true exactly when the input with every
    whitespace character removed is the literal "true" (case-sensitive); in
    particular "true" gives true while "True" and "false" give false. The
    cast is total — no input fails. -/
theorem C7_bool_cast :
    (∀ s : Str, GetAsBool s = true ↔ s.filter (fun c => !(isSpaceChar c)) = trueLit) ∧
    GetAsBool ("true".toList) = true ∧
    GetAsBool ("True".toList) = false ∧
    GetAsBool ("false".toList) = false := by
  refine ⟨fun s => ?_, rfl, rfl, rfl⟩
  unfold GetAsBool
  split <;> simp_all

/-- C8. In every tree produced by a successful parse, the root section has
    depth 0 and every non-root section's stored depth equals its parent's
    stored depth plus one (sections are addressed by a path of names from
    the root, so the quantification covers exactly the sections of the
    tree). -/
theorem C8_depth_invariant (text : Str) (T : Sec) (h : parseConfig text = .ok T) :
    T.depth = 0 ∧
    ∀ (p : List Str) (S : Sec) (nm : Str) (c : Sec),
      getSec? T p = some S → (nm, c) ∈ S.sections → c.depth = S.depth + 1 := by
  have hwf := parse_wf h
  refine ⟨(secWF_fields hwf).1, ?_⟩
  intro p S nm c hget hmem
  have hS := secWF_getSec hwf hget
  have hSd := (secWF_fields hS).1
  have hc := (secWF_fields hS).2.2.2.2.2.2.2 (nm, c) hmem
  have hcd := (secWF_fields hc).1
  rw [hSd, hcd]

/-- witness for C8_depth_invariant: the parse of "a=1, [e], ea=1, [[d]],
    da=3" (one line each). -/
theorem C8_depth_invariant_witness :
    (Sec.mk [("a".toList, "1".toList)] ["a".toList]
      [("e".toList, Sec.mk [("ea".toList, "1".toList)] ["ea".toList]
          [("d".toList, Sec.mk [("da".toList, "3".toList)] ["da".toList] [] [] 2)]
          ["d".toList] 1)]
      ["e".toList] 0).depth = 0 ∧
    ∀ (p : List Str) (S : Sec) (nm : Str) (c : Sec),
      getSec? (Sec.mk [("a".toList, "1".toList)] ["a".toList]
        [("e".toList, Sec.mk [("ea".toList, "1".toList)] ["ea".toList]
            [("d".toList, Sec.mk [("da".toList, "3".toList)] ["da".toList] [] [] 2)]
            ["d".toList] 1)]
        ["e".toList] 0) p = some S → (nm, c) ∈ S.sections → c.depth = S.depth + 1 :=
  C8_depth_invariant ("a=1\n[e]\nea=1\n[[d]]\nda=3\n".toList)
    (Sec.mk [("a".toList, "1".toList)] ["a".toList]
      [("e".toList, Sec.mk [("ea".toList, "1".toList)] ["ea".toList]
          [("d".toList, Sec.mk [("da".toList, "3".toList)] ["da".toList] [] [] 2)]
          ["d".toList] 1)]
      ["e".toList] 0) rfl

/-- C9. In every tree produced by a successful parse, every section's
    mOrderedValues is exactly the key list of its mValues — no duplicates,
    in first-insertion order (the association list models the map in
    insertion order) — and its mOrderedSections is exactly the name list of
    its mSections, no duplicates, in first-creation order. -/
theorem C9_order_invariant (text : Str) (T : Sec) (h : parseConfig text = .ok T) :
    ∀ (p : List Str) (S : Sec), getSec? T p = some S →
      S.orderedValues = S.values.map Prod.fst ∧
      (S.values.map Prod.fst).Nodup ∧
      S.orderedSections = S.sections.map Prod.fst ∧
      (S.sections.map Prod.fst).Nodup := by
  have hwf := parse_wf h
  intro p S hget
  have hS := secWF_getSec hwf hget
  obtain ⟨_, h2, h3, h4, h5, _⟩ := secWF_fields hS
  exact ⟨h2, h3, h4, h5⟩

/-- witness for C9_order_invariant at the same five-line input, at the
    nested section reached by the path ["e", "d"]. -/
theorem C9_order_invariant_witness :
    (Sec.mk [("da".toList, "3".toList)] ["da".toList]
        ([] : List (Str × Sec)) ([] : List Str) 2).orderedValues =
      (Sec.mk [("da".toList, "3".toList)] ["da".toList]
        ([] : List (Str × Sec)) ([] : List Str) 2).values.map Prod.fst ∧
    ((Sec.mk [("da".toList, "3".toList)] ["da".toList]
        ([] : List (Str × Sec)) ([] : List Str) 2).values.map Prod.fst).Nodup ∧
    (Sec.mk [("da".toList, "3".toList)] ["da".toList]
        ([] : List (Str × Sec)) ([] : List Str) 2).orderedSections =
      (Sec.mk [("da".toList, "3".toList)] ["da".toList]
        ([] : List (Str × Sec)) ([] : List Str) 2).sections.map Prod.fst ∧
    ((Sec.mk [("da".toList, "3".toList)] ["da".toList]
        ([] : List (Str × Sec)) ([] : List Str) 2).sections.map Prod.fst).Nodup :=
  C9_order_invariant ("a=1\n[e]\nea=1\n[[d]]\nda=3\n".toList)
    (Sec.mk [("a".toList, "1".toList)] ["a".toList]
      [("e".toList, Sec.mk [("ea".toList, "1".toList)] ["ea".toList]
          [("d".toList, Sec.mk [("da".toList, "3".toList)] ["da".toList] [] [] 2)]
          ["d".toList] 1)]
      ["e".toList] 0) rfl ["e".toList, "d".toList]
    (Sec.mk [("da".toList, "3".toList)] ["da".toList]
      ([] : List (Str × Sec)) ([] : List Str) 2) rfl

/-- C10. Empty tokens arising from consecutive commas or a leading comma are
    silently dropped, never rejected: tokenizing never returns an empty
    token, and casting "(open brace)1,,2(close brace)" to an integer array
    yields [1, 2] with no error. -/
theorem C10_empty_tokens_dropped :
    (∀ s : Str, (Tokenize s [',']).all (fun t => !(t.isEmpty)) = true) ∧
    GetAsVecInt ("\x7b1,,2\x7d".toList) = some [1, 2] := by
  refine ⟨fun s => ?_, rfl⟩
  rw [List.all_eq_true]
  intro t ht
  have := tokenizeAux_no_nil (fun c => List.contains [','] c) s [] [] (by simp) t ht
  simpa [List.isEmpty_iff] using this

end INI
